import Mathlib

/-!
A verification development for the local overlay-cache / local-documents-view
subsystem: the in-memory `MemoryDocumentOverlayCache`, the persistent
`IndexedDbDocumentOverlayCache`, and `LocalDocumentsView`.

The TypeScript sources are embedded shallowly:
  * `ResourcePath` is a list of string segments; `DocumentKey` wraps a path.
  * The comparators are translated as executable `Bool`-valued functions
    (`segLtB`, `pathLtB`, `keyLtB`); JavaScript compares strings by code
    units, which is lexicographic comparison of the character lists.
  * The firestore `SortedMap` container (`util/sorted_map.ts`, not among the
    embedded sources) is modelled from the spec, section 4.1, as a sorted
    association list with `get`, `insert`, `remove`, ascending iteration and
    `getIteratorFrom` (iteration from the first key that is not below the
    given key).  The callers use `insert` statement-style and expect a later
    `get` to observe it, so insertion is modelled as returning the updated
    map which the embedding threads through.
  * Native JavaScript `Map`/`Set` objects are association lists / lists in
    insertion order.  `Map.prototype.get` yields `undefined` for an absent
    key, never `null`; this distinction is preserved because the source
    compares such results against `null`.
  * A JavaScript computation that can throw a `TypeError` is modelled by
    `JsOutcome`, which carries the state as it is at the moment of the
    throw (the in-memory cache performs its mutations in place, so state
    changes made before a throw survive it).
-/

/-- Lexicographic comparison of character lists: the order JavaScript uses on
strings (code-unit by code-unit, a strict prefix before its extensions). -/
def segLtB : List Char → List Char → Bool
  | [], [] => false
  | [], _ :: _ => true
  | _ :: _, [] => false
  | a :: as, b :: bs => if a < b then true else if b < a then false else segLtB as bs

/-- String comparison by code units, as used by the segment comparator of
`BasePath.comparator`. -/
def strLtB (a b : String) : Bool := segLtB a.data b.data

/-- A resource path is an ordered list of string segments
(`model/path.ts`). -/
abbrev ResourcePathM := List String

/-- The component-wise path comparator of `BasePath.comparator`: compare
segment by segment; when one path is a strict leading run of the other, the
shorter one comes first. -/
def pathLtB : List String → List String → Bool
  | [], [] => false
  | [], _ :: _ => true
  | _ :: _, [] => false
  | a :: p, b :: q => if strLtB a b then true else if strLtB b a then false else pathLtB p q

/-- `ResourcePath.child(segment)`: append one segment. -/
def pathChild (c : ResourcePathM) (seg : String) : ResourcePathM := c ++ [seg]

/-- `ResourcePath.isPrefixOf(other)`: `c` is a leading run of segments of
`p`, compared segment by segment. -/
def pathStartsWith (p c : List String) : Bool :=
  match c, p with
  | [], _ => true
  | _ :: _, [] => false
  | ch :: ct, ph :: pt => ph = ch && pathStartsWith pt ct

/-- A document key wraps the document's resource path
(`model/document_key.ts`). -/
structure DocumentKey where
  path : List String
deriving DecidableEq

/-- `DocumentKey.comparator`: keys are ordered by their paths. -/
def keyLtB (k1 k2 : DocumentKey) : Bool := pathLtB k1.path k2.path

/-- `DocumentKey.getCollectionGroup()`: the last collection segment, i.e. the
second-to-last path segment, absent when the path is too short. -/
def collectionGroupOf (k : DocumentKey) : Option String := k.path.dropLast.getLast?

/-- Modelled from the spec, section 3: `model/mutation.ts` is not among the
embedded sources.  A mutation is one of a closed set of variants of which
`PatchMutation` is distinguished; every variant carries its target key.  The
`payload` field stands for the variant's field/value data, which the overlay
subsystem treats as opaque. -/
inductive MutationM where
  | patch (key : DocumentKey) (payload : Nat)
  | setM (key : DocumentKey) (payload : Nat)
  | deleteM (key : DocumentKey)
deriving DecidableEq

/-- The target key carried by a mutation (`mutation.key`). -/
def MutationM.key : MutationM → DocumentKey
  | .patch k _ => k
  | .setM k _ => k
  | .deleteM k => k

/-- The `instanceof PatchMutation` discrimination. -/
def MutationM.isPatch : MutationM → Bool
  | .patch _ _ => true
  | _ => false

/-- An overlay pairs the largest contributing batch id with a mutation
(`model/overlay.ts`).  The field is declared with type `Mutation`, but the
persistent cache's `saveOverlays` can construct an overlay from an absent
mutation at run time, so the model uses `Option`. -/
structure OverlayM where
  largestBatchId : Int
  mutation : Option MutationM
deriving DecidableEq

/-- `Overlay.getKey()` returns `mutation.key`.  When the mutation is absent
the JavaScript expression would dereference `null`; the model returns the
root key in that case, and the well-formedness hypotheses of the theorems
below rule the case out wherever the source relies on it. -/
def OverlayM.getKey (o : OverlayM) : DocumentKey :=
  match o.mutation with
  | some m => m.key
  | none => ⟨[]⟩

/-- The test `overlay.mutation instanceof PatchMutation` for an overlay in
hand: false when the mutation is absent (`null instanceof C` is false). -/
def overlayMutationIsPatch (o : OverlayM) : Bool :=
  match o.mutation with
  | some m => m.isPatch
  | none => false

/-- Outcome of a JavaScript computation over a mutable state: normal
completion, or a thrown `TypeError` carrying the state at the moment of the
throw. -/
inductive JsOutcome (α : Type) where
  | ok (s : α)
  | threw (s : α)
deriving DecidableEq

/-! ### Native JavaScript `Map` / `Set` helpers (insertion-ordered) -/

/-- `Map.prototype.get`: the stored value, or `none` standing for
`undefined` when the key is absent. -/
def jsMapGet {κ α : Type} [DecidableEq κ] : List (κ × α) → κ → Option α
  | [], _ => none
  | e :: rest, k => if e.1 = k then some e.2 else jsMapGet rest k

/-- `Map.prototype.set`: replace in place, or append a new entry. -/
def jsMapSet {κ α : Type} [DecidableEq κ] : List (κ × α) → κ → α → List (κ × α)
  | [], k, v => [(k, v)]
  | e :: rest, k, v => if e.1 = k then (k, v) :: rest else e :: jsMapSet rest k v

/-- `Map.prototype.delete` / `Set.prototype.delete`. -/
def jsMapDelete {κ α : Type} [DecidableEq κ] : List (κ × α) → κ → List (κ × α)
  | [], _ => []
  | e :: rest, k => if e.1 = k then rest else e :: jsMapDelete rest k

/-- `Set.prototype.add`: append if not already present. -/
def jsSetAdd {κ : Type} [DecidableEq κ] (s : List κ) (k : κ) : List κ :=
  if k ∈ s then s else s ++ [k]

/-- `Set.prototype.delete`. -/
def jsSetDelete {κ : Type} [DecidableEq κ] : List κ → κ → List κ
  | [], _ => []
  | x :: rest, k => if x = k then rest else x :: jsSetDelete rest k

/-- The test `x === null` applied to the result of `Map.prototype.get`: that
result is either the stored object or `undefined`, never `null`, so the test
is false in both cases.  (The in-memory cache's `saveOverlay` performs this
test on a native `Map` whose values are `Set` objects.) -/
def jsGetIsNull {α : Type} : Option α → Bool
  | none => false
  | some _ => false

/-! ### The firestore `SortedMap`, modelled from the spec (section 4.1) -/

/-- Modelled from the spec: `util/sorted_map.ts` is not among the embedded
sources.  Ordered insertion into a sorted association list; an existing
entry with an equal key is replaced. -/
def sortedInsertBy {κ α : Type} (lt : κ → κ → Bool) :
    List (κ × α) → κ → α → List (κ × α)
  | [], k, v => [(k, v)]
  | e :: rest, k, v =>
    if lt k e.1 then (k, v) :: e :: rest
    else if lt e.1 k then e :: sortedInsertBy lt rest k v
    else (k, v) :: rest

/-- Modelled from the spec: `SortedMap.get`, a lookup by key equality. -/
def sortedGet {κ α : Type} [DecidableEq κ] (m : List (κ × α)) (k : κ) : Option α :=
  jsMapGet m k

/-- Modelled from the spec: `SortedMap.remove`. -/
def sortedRemove {κ α : Type} [DecidableEq κ] (m : List (κ × α)) (k : κ) : List (κ × α) :=
  jsMapDelete m k

/-- Modelled from the spec: `SortedMap.getIteratorFrom(key)` iterates
ascending from the first entry whose key is not below `key`. -/
def sortedFrom {α : Type} (m : List (DocumentKey × α)) (k : DocumentKey) :
    List (DocumentKey × α) :=
  m.dropWhile (fun e => keyLtB e.1 k)

/-! ### `MemoryDocumentOverlayCache` -/

/-- The state of `MemoryDocumentOverlayCache`: the key-sorted forward map
`overlays` and the native-`Map` inverted index `overlayByBatchId` from batch
id to the `Set` of keys. -/
structure MemoryOverlayState where
  overlays : List (DocumentKey × OverlayM)
  overlayByBatchId : List (Int × List DocumentKey)
deriving DecidableEq

/-- A freshly constructed `MemoryDocumentOverlayCache`. -/
def memEmpty : MemoryOverlayState := ⟨[], []⟩

/-- `MemoryDocumentOverlayCache.getOverlay`. -/
def memGetOverlay (s : MemoryOverlayState) (k : DocumentKey) : Option OverlayM :=
  sortedGet s.overlays k

/-- `MemoryDocumentOverlayCache.saveOverlay`, line by line.  The two places
that read `overlayByBatchId.get(...)` and immediately call `.delete` / `.add`
on the result throw a `TypeError` when the bucket is absent, because
`Map.prototype.get` returns `undefined` there; the guard
`if (overlayByBatchId.get(largestBatchId) === null)` that is meant to create
the bucket never fires (see `jsGetIsNull`), so no bucket is ever created. -/
def memSaveOverlay (largestBatchId : Int) (mutation : Option MutationM)
    (s : MemoryOverlayState) : JsOutcome MemoryOverlayState :=
  match mutation with
  | none => .ok s
  | some mu =>
    -- Remove the association of the overlay to its batch id.
    let step1 : JsOutcome MemoryOverlayState :=
      match sortedGet s.overlays mu.key with
      | none => .ok s
      | some existing =>
        match jsMapGet s.overlayByBatchId existing.largestBatchId with
        | none => .threw s
        | some bucket =>
          let idx := jsMapSet s.overlayByBatchId existing.largestBatchId (jsSetDelete bucket mu.key)
          .ok { s with overlayByBatchId := idx }
    match step1 with
    | .threw s' => .threw s'
    | .ok s1 =>
      let s2 : MemoryOverlayState :=
        { s1 with overlays := sortedInsertBy keyLtB s1.overlays mu.key ⟨largestBatchId, some mu⟩ }
      -- Create the association of this overlay to the given largestBatchId.
      let s3 : MemoryOverlayState :=
        if jsGetIsNull (jsMapGet s2.overlayByBatchId largestBatchId) then
          { s2 with overlayByBatchId := jsMapSet s2.overlayByBatchId largestBatchId [] }
        else s2
      match jsMapGet s3.overlayByBatchId largestBatchId with
      | none => .threw s3
      | some bucket =>
        let idx := jsMapSet s3.overlayByBatchId largestBatchId (jsSetAdd bucket mu.key)
        .ok { s3 with overlayByBatchId := idx }

/-- `MemoryDocumentOverlayCache.saveOverlays`: iterate the entries of the
given map in insertion order; a throw from `saveOverlay` aborts the
iteration and propagates. -/
def memSaveOverlays (largestBatchId : Int)
    (entries : List (DocumentKey × Option MutationM)) (s : MemoryOverlayState) :
    JsOutcome MemoryOverlayState :=
  match entries with
  | [] => .ok s
  | (_, m) :: rest =>
    match memSaveOverlay largestBatchId m s with
    | .ok s' => memSaveOverlays largestBatchId rest s'
    | .threw s' => .threw s'

/-- `MemoryDocumentOverlayCache.removeOverlaysForBatchId`. -/
def memRemoveOverlaysForBatchId (batchId : Int) (s : MemoryOverlayState) :
    MemoryOverlayState :=
  match jsMapGet s.overlayByBatchId batchId with
  | none => s
  | some keys =>
    { overlays := keys.foldl (fun ovs k => sortedRemove ovs k) s.overlays,
      overlayByBatchId := jsMapDelete s.overlayByBatchId batchId }

/-- The iteration body of `MemoryDocumentOverlayCache.getOverlaysForCollection`:
break once the iterated key no longer extends `collection`, skip documents
from sub-collections, collect overlays past `sinceBatchId`. -/
def memGFCLoop (collection : ResourcePathM) (sinceBatchId : Int)
    (result : List (DocumentKey × OverlayM)) :
    List (DocumentKey × OverlayM) → List (DocumentKey × OverlayM)
  | [] => result
  | (_, overlay) :: rest =>
    let key := overlay.getKey
    if ¬ pathStartsWith key.path collection then result
    else if key.path.length ≠ collection.length + 1 then
      memGFCLoop collection sinceBatchId result rest
    else if sinceBatchId < overlay.largestBatchId then
      memGFCLoop collection sinceBatchId (jsMapSet result overlay.getKey overlay) rest
    else memGFCLoop collection sinceBatchId result rest

/-- `MemoryDocumentOverlayCache.getOverlaysForCollection`: seek the sorted
map to the synthetic key `collection.child('')` and walk ascending. -/
def memGetOverlaysForCollection (s : MemoryOverlayState) (collection : ResourcePathM)
    (sinceBatchId : Int) : List (DocumentKey × OverlayM) :=
  memGFCLoop collection sinceBatchId []
    (sortedFrom s.overlays ⟨pathChild collection ""⟩)

/-- Insertion into the secondary sorted map `batchIdToOverlays` of
`getOverlaysForCollectionGroup`: find or create the bucket for the batch id
(the map is sorted by ascending batch id) and `set` the overlay into it. -/
def bucketsInsert (b : Int) (k : DocumentKey) (o : OverlayM) :
    List (Int × List (DocumentKey × OverlayM)) →
    List (Int × List (DocumentKey × OverlayM))
  | [] => [(b, [(k, o)])]
  | (b', grp) :: rest =>
    if b < b' then (b, [(k, o)]) :: (b', grp) :: rest
    else if b = b' then (b', jsMapSet grp k o) :: rest
    else (b', grp) :: bucketsInsert b k o rest

/-- The first pass of `MemoryDocumentOverlayCache.getOverlaysForCollectionGroup`:
scan all overlays in key order and bucket the qualifying ones by batch id. -/
def memCGQBuild (g : String) (sinceBatchId : Int)
    (buckets : List (Int × List (DocumentKey × OverlayM))) :
    List (DocumentKey × OverlayM) → List (Int × List (DocumentKey × OverlayM))
  | [] => buckets
  | (_, overlay) :: rest =>
    let key := overlay.getKey
    if collectionGroupOf key ≠ some g then memCGQBuild g sinceBatchId buckets rest
    else if sinceBatchId < overlay.largestBatchId then
      memCGQBuild g sinceBatchId
        (bucketsInsert overlay.largestBatchId overlay.getKey overlay buckets) rest
    else memCGQBuild g sinceBatchId buckets rest

/-- The second pass of `getOverlaysForCollectionGroup`: drain the buckets in
ascending batch-id order into the result and break once the result size has
reached `count` — checked only after a whole bucket has been copied. -/
def memCGQDrain (count : Int) (result : List (DocumentKey × OverlayM)) :
    List (Int × List (DocumentKey × OverlayM)) → List (DocumentKey × OverlayM)
  | [] => result
  | (_, grp) :: rest =>
    let result' := grp.foldl (fun r e => jsMapSet r e.1 e.2) result
    if count ≤ (result'.length : Int) then result'
    else memCGQDrain count result' rest

/-- `MemoryDocumentOverlayCache.getOverlaysForCollectionGroup`. -/
def memGetOverlaysForCollectionGroup (s : MemoryOverlayState) (g : String)
    (sinceBatchId : Int) (count : Int) : List (DocumentKey × OverlayM) :=
  memCGQDrain count [] (memCGQBuild g sinceBatchId [] s.overlays)

/-! ### `IndexedDbDocumentOverlayCache`

The durable rows for one user form a key-sorted association list (the store's
primary key is `(userId, encodedDocumentPath)` and the path encoding is
order-preserving, spec section 6; the model fixes a single user, since every
operation of the source is prefixed by `this.userId`). -/

/-- Rows of the `documentOverlays` object store visible to one user. -/
abbrev IdbState := List (DocumentKey × OverlayM)

/-- `IndexedDbDocumentOverlayCache.getOverlay`: point lookup by document
key. -/
def idbGetOverlay (st : IdbState) (k : DocumentKey) : Option OverlayM :=
  jsMapGet st k

/-- `IndexedDbDocumentOverlayCache.saveOverlay`:
`put(toDbDocumentOverlay(serializer, userId, overlay))`, an upsert keyed by
the overlay's document key.  Modelled from the spec, sections 4.3.2 and 6:
`local_serializer.ts` is not among the embedded sources; the serializer
round-trips a present mutation, and building the row reads the overlay's
document key through its mutation, so an overlay holding an absent mutation
faults the transaction (`.threw`) instead of producing a row. -/
def idbSaveOverlay (largestBatchId : Int) (mutation : Option MutationM)
    (st : IdbState) : JsOutcome IdbState :=
  match mutation with
  | none => .threw st
  | some mu => .ok (sortedInsertBy keyLtB st mu.key ⟨largestBatchId, some mu⟩)

/-- `IndexedDbDocumentOverlayCache.saveOverlays`: one `saveOverlay` per map
entry, with no check that the mutation is present. -/
def idbSaveOverlays (largestBatchId : Int)
    (entries : List (DocumentKey × Option MutationM)) (st : IdbState) :
    JsOutcome IdbState :=
  match entries with
  | [] => .ok st
  | (_, m) :: rest =>
    match idbSaveOverlay largestBatchId m st with
    | .ok st' => idbSaveOverlays largestBatchId rest st'
    | .threw st' => .threw st'

/-- `IndexedDbDocumentOverlayCache.removeOverlaysForBatchId`: range-delete on
the `(userId, batchId)` index with bounds `[(u, b), (u, b + 1))`, i.e. delete
exactly the rows whose `largestBatchId` equals `batchId`. -/
def idbRemoveOverlaysForBatchId (batchId : Int) (st : IdbState) : IdbState :=
  st.filter (fun e => !(e.2.largestBatchId == batchId))

/-- `IndexedDbDocumentOverlayCache.getOverlaysForCollection`: range scan of
the `(userId, collectionPath, largestBatchId)` index with the lower bound
`sinceBatchId` exclusive.  The stored `collectionPath` of a row is the
document's path without its final segment (spec section 6). -/
def idbGetOverlaysForCollection (st : IdbState) (collection : ResourcePathM)
    (sinceBatchId : Int) : List (DocumentKey × OverlayM) :=
  (st.filter (fun e =>
      e.1.path.dropLast == collection && decide (sinceBatchId < e.2.largestBatchId))).foldl
    (fun r e => jsMapSet r e.2.getKey e.2) []

/-- Insert a batch id into an ascending duplicate-free list. -/
def insSorted (b : Int) : List Int → List Int
  | [] => [b]
  | x :: rest =>
    if b < x then b :: x :: rest
    else if b = x then x :: rest
    else x :: insSorted b rest

/-- The distinct `largestBatchId` values of a row list, ascending. -/
def sortedBatchIds (rows : List (DocumentKey × OverlayM)) : List Int :=
  rows.foldl (fun acc e => insSorted e.2.largestBatchId acc) []

/-- The rows that qualify for a collection-group read: the key's collection
group equals `g` and the batch id is past `sinceBatchId`. -/
def cgMatching (rows : List (DocumentKey × OverlayM)) (g : String)
    (sinceBatchId : Int) : List (DocumentKey × OverlayM) :=
  rows.filter (fun e =>
    collectionGroupOf e.2.getKey == some g && decide (sinceBatchId < e.2.largestBatchId))

/-- The order in which the `(userId, collectionGroup, largestBatchId)` index
delivers the qualifying rows (spec section 4.3.2): ascending batch id, and
within one batch id the store's primary-key order, which for a key-sorted row
list is the rows' own order. -/
def idbScanRows (st : IdbState) (g : String) (sinceBatchId : Int) :
    List (DocumentKey × OverlayM) :=
  let m := cgMatching st g sinceBatchId
  (sortedBatchIds m).flatMap (fun b => m.filter (fun e => e.2.largestBatchId == b))

/-- The iteration callback of
`IndexedDbDocumentOverlayCache.getOverlaysForCollectionGroup`: keep
aggregating while fewer than `count` overlays are collected or the overlay
continues the current batch; otherwise `control.done()`. -/
def idbCGQLoop (count : Int) (result : List (DocumentKey × OverlayM))
    (currentBatchId : Option Int) (currentCount : Int) :
    List (DocumentKey × OverlayM) → List (DocumentKey × OverlayM)
  | [] => result
  | (_, overlay) :: rest =>
    if currentCount < count ∨ currentBatchId = some overlay.largestBatchId then
      idbCGQLoop count (jsMapSet result overlay.getKey overlay)
        (some overlay.largestBatchId) (currentCount + 1) rest
    else result

/-- `IndexedDbDocumentOverlayCache.getOverlaysForCollectionGroup`. -/
def idbGetOverlaysForCollectionGroup (st : IdbState) (g : String)
    (sinceBatchId : Int) (count : Int) : List (DocumentKey × OverlayM) :=
  idbCGQLoop count [] none 0 (idbScanRows st g sinceBatchId)

/-! ### The collection-group read, as the claims state it -/

/-- The number of qualifying overlays in the batch group `b`. -/
def cgGroupSize (m : List (DocumentKey × OverlayM)) (b : Int) : Nat :=
  (m.filter (fun e => e.2.largestBatchId == b)).length

/-- The batch-group ids taken by the rule of spec sections 4.3 and 8 (testable
property 4): walk the group ids in ascending order and add a group only while
the cumulative number of collected overlays is still below `count`. -/
def cgTakenIds (m : List (DocumentKey × OverlayM)) (count : Int) :
    List Int → Int → List Int
  | [], _ => []
  | b :: bs, acc =>
    if count ≤ acc then []
    else b :: cgTakenIds m count bs (acc + (cgGroupSize m b : Int))

/-- The collection-group result prescribed by the claim: the qualifying
overlays of a prefix of complete batch groups, ascending by batch id, groups
added whole until the cumulative count first reaches or exceeds `count`. -/
def cgSpecResult (rows : List (DocumentKey × OverlayM)) (g : String)
    (sinceBatchId : Int) (count : Int) : List (DocumentKey × OverlayM) :=
  let m := cgMatching rows g sinceBatchId
  (cgTakenIds m count (sortedBatchIds m) 0).flatMap
    (fun b => m.filter (fun e => e.2.largestBatchId == b))

/-- The batch-group ids the in-memory drain loop takes: it copies a group
first and only then compares the result size with `count`. -/
def cgTakenIdsDW (m : List (DocumentKey × OverlayM)) (count : Int) :
    List Int → Int → List Int
  | [], _ => []
  | b :: bs, acc =>
    let acc' := acc + (cgGroupSize m b : Int)
    b :: (if count ≤ acc' then [] else cgTakenIdsDW m count bs acc')

/-! ### `LocalDocumentsView` -/

/-- A document value as handled by the view: the remote document cache
returns found documents or invalid/unknown sentinels
(`model/document.ts`, external to the embedded core). -/
inductive MutableDocumentM where
  | invalidDoc (key : DocumentKey)
  | foundDoc (key : DocumentKey) (payload : Nat)
  | noDoc (key : DocumentKey)
  | unknownDoc (key : DocumentKey)
deriving DecidableEq

/-- `LocalDocumentsView.getBaseDocument`, instrumented with the list of keys
read from the remote document cache: the remote entry when the overlay is
absent or its mutation is a `PatchMutation`, otherwise a freshly synthesized
invalid document with no remote read. -/
def getBaseDocument (remote : DocumentKey → MutableDocumentM) (k : DocumentKey)
    (overlay : Option OverlayM) : MutableDocumentM × List DocumentKey :=
  match overlay with
  | none => (remote k, [k])
  | some o =>
    if overlayMutationIsPatch o then (remote k, [k])
    else (MutableDocumentM.invalidDoc k, [])

/-- `LocalDocumentsView.getDocument`, instrumented like `getBaseDocument`.
`applyMu` stands for `mutationApplyToLocalView` of `model/mutation.ts`
(external to the embedded core), taking the overlay's mutation, the document
and the current timestamp. -/
def lvGetDocument (cache : DocumentKey → Option OverlayM)
    (remote : DocumentKey → MutableDocumentM)
    (applyMu : Option MutationM → MutableDocumentM → Int → MutableDocumentM)
    (now : Int) (k : DocumentKey) : MutableDocumentM × List DocumentKey :=
  let overlay := cache k
  let bd := getBaseDocument remote k overlay
  match overlay with
  | some o => (applyMu o.mutation bd.1 now, bd.2)
  | none => (bd.1, bd.2)

/-- A mutation batch as the mutation queue returns it: its id and the set of
keys it touches (`mutation_queue.ts` and `mutation_batch.ts` are external to
the embedded core; spec section 4.5). -/
structure MutationBatchM where
  batchId : Int
  keys : List DocumentKey
deriving DecidableEq

/-- A field mask is a set of field paths (spec section 3). -/
abbrev FieldMaskM := List (List String)

/-- The external document/mutation primitives `recalculateAndSaveOverlays`
calls into, kept abstract (they live in `model/`, outside the embedded
core): `MutationBatch.applyToLocalViewWithFieldMask` both composes the batch
onto the document object in place (`applyBatchDoc`) and returns the
accumulated, possibly absent field mask (`applyBatchMask`), and
`calculateOverlayMutation` derives the overlay mutation, possibly absent,
from the composed document and its mask. -/
structure RecalcEnv where
  applyBatchMask : MutationBatchM → Option MutableDocumentM → Option FieldMaskM → Option FieldMaskM
  applyBatchDoc : MutationBatchM → MutableDocumentM → MutableDocumentM
  calcOverlayMutation : Option MutableDocumentM → Option FieldMaskM → Option MutationM

/-- The state threaded through the first pass of
`recalculateAndSaveOverlays`: the (in-place mutated) documents, the masks
map, and the sorted reverse-lookup map `documentsByBatchId`. -/
structure RecalcPass1 where
  docs : List (DocumentKey × MutableDocumentM)
  masks : List (DocumentKey × Option FieldMaskM)
  byId : List (Int × List DocumentKey)
deriving DecidableEq

/-- The numeric comparator `(key1, key2) => key1 - key2` used for the
`SortedMap` instances keyed by batch id. -/
def intLtB (a b : Int) : Bool := decide (a < b)

/-- One key of one batch in the first pass of
`recalculateAndSaveOverlays`: fold the batch into the mask and the document,
and add the key to `documentsByBatchId[batch.batchId]` (a `SortedMap` keyed
by batch id, whose `get` does return `null` when the key is absent, so that
bucket-creation guard works). -/
def recalcKeyStep (env : RecalcEnv) (batch : MutationBatchM) (st : RecalcPass1)
    (k : DocumentKey) : RecalcPass1 :=
  let mask0 : Option FieldMaskM :=
    match jsMapGet st.masks k with
    | some m => m
    | none => some []
  let docK := jsMapGet st.docs k
  let mask1 := env.applyBatchMask batch docK mask0
  let docs' :=
    match docK with
    | some d => jsMapSet st.docs k (env.applyBatchDoc batch d)
    | none => st.docs
  let masks' := jsMapSet st.masks k mask1
  let byId0 :=
    if (sortedGet st.byId batch.batchId).isNone then
      sortedInsertBy intLtB st.byId batch.batchId []
    else st.byId
  let byId' :=
    match sortedGet byId0 batch.batchId with
    | some bucket => jsMapSet byId0 batch.batchId (jsSetAdd bucket k)
    | none => byId0
  ⟨docs', masks', byId'⟩

/-- The first pass of `recalculateAndSaveOverlays` over the batches the
mutation queue returned. -/
def recalcPass1 (env : RecalcEnv) (batches : List MutationBatchM)
    (docs : List (DocumentKey × MutableDocumentM)) : RecalcPass1 :=
  batches.foldl (fun st batch => batch.keys.foldl (recalcKeyStep env batch) st)
    ⟨docs, [], []⟩

/-- The staged overlays of one bucket in the second pass: every not yet
processed key of the bucket is staged with its recalculated overlay mutation
and marked processed. -/
def recalcBucketEntries (env : RecalcEnv)
    (docs : List (DocumentKey × MutableDocumentM))
    (masks : List (DocumentKey × Option FieldMaskM))
    (processed : List DocumentKey) (ks : List DocumentKey) :
    List (DocumentKey × Option MutationM) × List DocumentKey :=
  ks.foldl
    (fun acc k =>
      if k ∈ acc.2 then acc
      else
        (jsMapSet acc.1 k (env.calcOverlayMutation (jsMapGet docs k) ((jsMapGet masks k).join)),
          acc.2 ++ [k]))
    ([], processed)

/-- The second pass of `recalculateAndSaveOverlays`: walk
`documentsByBatchId` in descending batch-id order (its reverse iterator) and
emit one `saveOverlays` call per bucket, skipping keys already processed for
a higher batch id. -/
def recalcPass2 (env : RecalcEnv) (docs : List (DocumentKey × MutableDocumentM))
    (masks : List (DocumentKey × Option FieldMaskM)) (processed : List DocumentKey) :
    List (Int × List DocumentKey) → List (Int × List (DocumentKey × Option MutationM))
  | [] => []
  | (b, ks) :: rest =>
    let entry := recalcBucketEntries env docs masks processed ks
    (b, entry.1) :: recalcPass2 env docs masks entry.2 rest

/-- The `DocumentOverlayCache.saveOverlays` contract (the interface of
`document_overlay_cache.ts`, spec section 4.3): every entry holding a present
mutation is installed as an overlay whose largest batch id is the given one,
replacing any prior overlay for the key; entries with an absent mutation are
skipped, as the in-memory variant does (`saveOverlay` returns early on
`mutation === null`; the persistent variant instead faults on them, see C8).
`recalculateAndSaveOverlays` writes through this contract to whichever cache
was injected. -/
def contractSaveOverlays (b : Int) (entries : List (DocumentKey × Option MutationM))
    (cache : List (DocumentKey × OverlayM)) : List (DocumentKey × OverlayM) :=
  entries.foldl
    (fun c e =>
      match e.2 with
      | some mu => jsMapSet c e.1 ⟨b, some mu⟩
      | none => c)
    cache

/-- The overlay mutation the second pass of `recalculateAndSaveOverlays`
stages for a key: `calculateOverlayMutation` applied to the document as
composed in place by the first pass and to the accumulated field mask. -/
def recalcStagedMutation (env : RecalcEnv) (p1 : RecalcPass1) (k : DocumentKey) :
    Option MutationM :=
  env.calcOverlayMutation (jsMapGet p1.docs k) ((jsMapGet p1.masks k).join)

/-- The outcome of `recalculateAndSaveOverlays`: the updated overlay cache,
the `saveOverlays` calls it issued (descending batch id, in order), and the
documents as composed in place by the first pass. -/
structure RecalcResult where
  cache : List (DocumentKey × OverlayM)
  saveCalls : List (Int × List (DocumentKey × Option MutationM))
  docsAfter : List (DocumentKey × MutableDocumentM)
deriving DecidableEq

/-- `MutationQueue.getAllMutationBatchesAffectingDocumentKeys` (spec section
4.5): the batches that touch at least one key of `docs`, in queue order. -/
def affectingBatches (queue : List MutationBatchM)
    (docs : List (DocumentKey × MutableDocumentM)) : List MutationBatchM :=
  queue.filter (fun batch => batch.keys.any (fun k => (jsMapGet docs k).isSome))

/-- The batch ids of the returned batches that touch the key `k`. -/
def touchingIds (batches : List MutationBatchM) (k : DocumentKey) : List Int :=
  (batches.filter (fun b => decide (k ∈ b.keys))).map MutationBatchM.batchId

/-- `LocalDocumentsView.recalculateAndSaveOverlays`: ask the mutation queue
for the batches affecting the keys of `docs`, run the two passes, and issue
one `saveOverlays` call per bucket. -/
def recalculateAndSaveOverlays (env : RecalcEnv) (queue : List MutationBatchM)
    (cache : List (DocumentKey × OverlayM))
    (docs : List (DocumentKey × MutableDocumentM)) : RecalcResult :=
  let batches := affectingBatches queue docs
  let p1 := recalcPass1 env batches docs
  let calls := recalcPass2 env p1.docs p1.masks [] p1.byId.reverse
  ⟨calls.foldl (fun c e => contractSaveOverlays e.1 e.2 c) cache, calls, p1.docs⟩

/-- The per-document decision of `LocalDocumentsView.computeViews`: recalculate
when the document's existence state changed and the overlay is absent or a
patch. -/
def cvMarksForRecalc (overlay : Option OverlayM) (escHit : Bool) : Bool :=
  escHit &&
    (match overlay with
     | none => true
     | some o => overlayMutationIsPatch o)

/-- The outcome of `LocalDocumentsView.computeViews`, instrumented: the
returned document map, the documents marked for recalculation, the overlay
cache afterwards, and the `saveOverlays` calls issued on the way. -/
structure ComputeViewsResult where
  results : List (DocumentKey × MutableDocumentM)
  recalculateDocuments : List (DocumentKey × MutableDocumentM)
  cache : List (DocumentKey × OverlayM)
  saveCalls : List (Int × List (DocumentKey × Option MutationM))
deriving DecidableEq

/-- `LocalDocumentsView.computeViews`: per document, take the overlay from
`memoizedOverlays` or the overlay cache; mark the document for
recalculation, or apply the overlay mutation in place; then run
`recalculateAndSaveOverlays` on the marked documents and return every
document (the marked ones as the recalculation pass left them). -/
def computeViews (env : RecalcEnv)
    (applyMu : Option MutationM → MutableDocumentM → Int → MutableDocumentM)
    (now : Int) (queue : List MutationBatchM)
    (cache : List (DocumentKey × OverlayM))
    (docs : List (DocumentKey × MutableDocumentM))
    (memoizedOverlays : List (DocumentKey × OverlayM))
    (existenceStateChanged : List DocumentKey) : ComputeViewsResult :=
  let overlayOf : DocumentKey → Option OverlayM := fun k =>
    match jsMapGet memoizedOverlays k with
    | some o => some o
    | none => jsMapGet cache k
  let recalc := docs.filter
    (fun e => cvMarksForRecalc (overlayOf e.1) (decide (e.1 ∈ existenceStateChanged)))
  let rr := recalculateAndSaveOverlays env queue cache recalc
  let results := docs.map (fun e =>
    if cvMarksForRecalc (overlayOf e.1) (decide (e.1 ∈ existenceStateChanged)) then
      (e.1, (jsMapGet rr.docsAfter e.1).getD e.2)
    else
      match overlayOf e.1 with
      | some o => (e.1, applyMu o.mutation e.2 now)
      | none => (e.1, e.2))
  ⟨results, recalc, rr.cache, rr.saveCalls⟩

/-- `LocalDocumentsView.getLocalViewOfDocuments`: `computeViews` with no
memoized overlays. -/
def getLocalViewOfDocuments (env : RecalcEnv)
    (applyMu : Option MutationM → MutableDocumentM → Int → MutableDocumentM)
    (now : Int) (queue : List MutationBatchM)
    (cache : List (DocumentKey × OverlayM))
    (docs : List (DocumentKey × MutableDocumentM))
    (existenceStateChanged : List DocumentKey) : ComputeViewsResult :=
  computeViews env applyMu now queue cache docs [] existenceStateChanged

/-- `LocalDocumentsView.getDocuments`: bulk-read the remote entries for
`keys` and build their local view with an empty existence-state-changed
set. -/
def lvGetDocuments (env : RecalcEnv)
    (applyMu : Option MutationM → MutableDocumentM → Int → MutableDocumentM)
    (now : Int) (queue : List MutationBatchM)
    (cache : List (DocumentKey × OverlayM))
    (remote : DocumentKey → MutableDocumentM)
    (keys : List DocumentKey) : ComputeViewsResult :=
  getLocalViewOfDocuments env applyMu now queue cache
    (keys.map (fun k => (k, remote k))) []

/-! ### Well-formedness predicates and claim-side filters -/

/-- The invariant of the sorted containers: entries are strictly ascending
in the key order. -/
abbrev RowsSorted (rows : List (DocumentKey × OverlayM)) : Prop :=
  List.Pairwise (fun a b => keyLtB a.1 b.1 = true) rows

/-- Well-formed overlay rows (spec section 3): each stored overlay holds a
present mutation whose key is the entry's key, and document keys have at
least one segment. -/
abbrev RowsWF (rows : List (DocumentKey × OverlayM)) : Prop :=
  ∀ e ∈ rows, e.2.mutation.isSome = true ∧ e.2.getKey = e.1 ∧ e.1.path ≠ []

/-- The set of overlays the claims prescribe for a collection read: keys
that are immediate children of `collection` (the collection path extended by
exactly one segment) with a batch id past `sinceBatchId`. -/
def immediateChildOverlays (rows : List (DocumentKey × OverlayM))
    (collection : ResourcePathM) (sinceBatchId : Int) :
    List (DocumentKey × OverlayM) :=
  rows.filter (fun e =>
    pathStartsWith e.1.path collection &&
      (decide (e.1.path.length = collection.length + 1) &&
        decide (sinceBatchId < e.2.largestBatchId)))

/-- The first bucket of a bucket list that contains the key `k`, if any
(used to describe the descending iteration of `recalculateAndSaveOverlays`:
the first bucket of the reversed `documentsByBatchId` list that contains a
key is the one whose batch id the key's overlay is saved under). -/
def firstBucket (l : List (Int × List DocumentKey)) (k : DocumentKey) : Option Int :=
  (l.find? (fun p => decide (k ∈ p.2))).map Prod.fst

/-! ### Concrete fixtures for the closed evaluations and witnesses -/

/-- A concrete document key. -/
def exKey : DocumentKey := ⟨["users", "alice"]⟩

/-- A concrete non-patch mutation targeting `exKey`. -/
def exMut : MutationM := .setM exKey 0

/-- The state the in-memory cache is left in when `saveOverlays(1, {exKey:
exMut})` is invoked on a fresh cache: the forward sorted map received the
overlay, the inverted index did not (the call throws in between). -/
def exCrashState : MemoryOverlayState := ⟨[(exKey, ⟨1, some exMut⟩)], []⟩

/-- A concrete environment of external document/mutation primitives. -/
def exEnv : RecalcEnv := ⟨fun _ _ m => m, fun _ d => d, fun _ _ => none⟩

/-- An environment whose `calculateOverlayMutation` always yields a present
set mutation for `exKey`. -/
def exEnvSet : RecalcEnv :=
  ⟨fun _ _ m => m, fun _ d => d, fun _ _ => some (.setM exKey 0)⟩

/-- The batches of scenario S5 of the spec: ids 2, 5 and 9, all touching
`exKey`. -/
def c1Batches : List MutationBatchM := [⟨2, [exKey]⟩, ⟨5, [exKey]⟩, ⟨9, [exKey]⟩]

/-- The singleton document map holding `exKey`. -/
def c1Docs : List (DocumentKey × MutableDocumentM) :=
  [(exKey, MutableDocumentM.foundDoc exKey 0)]

/-- A document key in the collection `msgs`. -/
def wk (s : String) : DocumentKey := ⟨["msgs", s]⟩

/-- An overlay with a set mutation for `wk s` at batch `b`. -/
def wOv (b : Int) (s : String) : OverlayM := ⟨b, some (.setM (wk s) 0)⟩

/-- Overlay rows realising scenario S4 of the spec: batch 3 holds `{a, b}`,
batch 4 holds `{c}`, batch 5 holds `{d, e, f}`. -/
def wRows : List (DocumentKey × OverlayM) :=
  [(wk "a", wOv 3 "a"), (wk "b", wOv 3 "b"), (wk "c", wOv 4 "c"),
   (wk "d", wOv 5 "d"), (wk "e", wOv 5 "e"), (wk "f", wOv 5 "f")]

/-- Overlay rows realising scenario S3 of the spec: overlays for `rooms/r1`
and for the sub-collection document `rooms/r1/messages/m1`. -/
def s3Rows : List (DocumentKey × OverlayM) :=
  [(⟨["rooms", "r1"]⟩, ⟨2, some (.setM ⟨["rooms", "r1"]⟩ 0)⟩),
   (⟨["rooms", "r1", "messages", "m1"]⟩, ⟨2, some (.setM ⟨["rooms", "r1", "messages", "m1"]⟩ 0)⟩)]

/-! ### Order lemmas for the comparators -/

theorem segLtB_irrefl (a : List Char) : segLtB a a = false := by
  induction a with
  | nil => rfl
  | cons x xs ih => simp [segLtB, ih]

theorem segLtB_trans {a b c : List Char} (h1 : segLtB a b = true)
    (h2 : segLtB b c = true) : segLtB a c = true := by
  induction a generalizing b c with
  | nil =>
    cases c with
    | nil =>
      cases b with
      | nil => simp [segLtB] at h1
      | cons y ys => simp [segLtB] at h2
    | cons z zs => simp [segLtB]
  | cons x xs ih =>
    cases b with
    | nil => simp [segLtB] at h1
    | cons y ys =>
      cases c with
      | nil => simp [segLtB] at h2
      | cons z zs =>
        simp only [segLtB] at h1 h2 ⊢
        rcases lt_trichotomy x y with hxy | hxy | hxy
        · rcases lt_trichotomy y z with hyz | hyz | hyz
          · simp [lt_trans hxy hyz]
          · subst hyz; simp [hxy]
          · simp [hyz, not_lt.mpr (le_of_lt hyz)] at h2
        · subst hxy
          rcases lt_trichotomy x z with hxz | hxz | hxz
          · simp [hxz]
          · subst hxz
            simp [lt_irrefl] at h1 h2 ⊢
            exact ih h1 h2
          · simp [hxz, not_lt.mpr (le_of_lt hxz)] at h2
        · simp [hxy, not_lt.mpr (le_of_lt hxy)] at h1

theorem segLtB_eq_of_not {a b : List Char} (h1 : segLtB a b = false)
    (h2 : segLtB b a = false) : a = b := by
  induction a generalizing b with
  | nil =>
    cases b with
    | nil => rfl
    | cons y ys => simp [segLtB] at h1
  | cons x xs ih =>
    cases b with
    | nil => simp [segLtB] at h2
    | cons y ys =>
      simp only [segLtB] at h1 h2
      rcases lt_trichotomy x y with hxy | hxy | hxy
      · simp [hxy] at h1
      · subst hxy
        simp [lt_irrefl] at h1 h2
        exact congrArg (x :: ·) (ih h1 h2)
      · simp [hxy] at h2

theorem strLtB_irrefl (a : String) : strLtB a a = false := segLtB_irrefl a.data

theorem strLtB_trans {a b c : String} (h1 : strLtB a b = true)
    (h2 : strLtB b c = true) : strLtB a c = true := segLtB_trans h1 h2

theorem strLtB_eq_of_not {a b : String} (h1 : strLtB a b = false)
    (h2 : strLtB b a = false) : a = b := by
  cases a with
  | mk la =>
    cases b with
    | mk lb => exact congrArg String.mk (segLtB_eq_of_not h1 h2)

theorem strLtB_empty (s : String) : strLtB s "" = false := by
  unfold strLtB
  cases h : s.data with
  | nil => rfl
  | cons c cs => rfl

theorem pathLtB_irrefl (p : List String) : pathLtB p p = false := by
  induction p with
  | nil => rfl
  | cons x xs ih => simp [pathLtB, strLtB_irrefl, ih]

theorem pathLtB_trans {a b c : List String} (h1 : pathLtB a b = true)
    (h2 : pathLtB b c = true) : pathLtB a c = true := by
  induction a generalizing b c with
  | nil =>
    cases c with
    | nil =>
      cases b with
      | nil => simp [pathLtB] at h1
      | cons y ys => simp [pathLtB] at h2
    | cons z zs => simp [pathLtB]
  | cons x xs ih =>
    cases b with
    | nil => simp [pathLtB] at h1
    | cons y ys =>
      cases c with
      | nil => simp [pathLtB] at h2
      | cons z zs =>
        simp only [pathLtB] at h1 h2 ⊢
        by_cases hxy : strLtB x y = true
        · by_cases hyz : strLtB y z = true
          · simp [strLtB_trans hxy hyz]
          · by_cases hzy : strLtB z y = true
            · simp [hyz, hzy] at h2
            · have : y = z := strLtB_eq_of_not (Bool.not_eq_true _ ▸ hyz) (Bool.not_eq_true _ ▸ hzy)
              subst this
              simp [hxy]
        · by_cases hyx : strLtB y x = true
          · simp [hxy, hyx] at h1
          · have hinner : x = y :=
              strLtB_eq_of_not (by simpa using hxy) (by simpa using hyx)
            subst hinner
            simp only [strLtB_irrefl, Bool.false_eq_true, if_false] at h1 h2 ⊢
            by_cases hxz : strLtB x z = true
            · simp [hxz]
            · by_cases hzx : strLtB z x = true
              · simp [hxz, hzx] at h2
              · simp [hxz, hzx] at h2 ⊢
                exact ih h1 h2

theorem pathLtB_eq_of_not {a b : List String} (h1 : pathLtB a b = false)
    (h2 : pathLtB b a = false) : a = b := by
  induction a generalizing b with
  | nil =>
    cases b with
    | nil => rfl
    | cons y ys => simp [pathLtB] at h1
  | cons x xs ih =>
    cases b with
    | nil => simp [pathLtB] at h2
    | cons y ys =>
      simp only [pathLtB] at h1 h2
      by_cases hxy : strLtB x y = true
      · simp [hxy] at h1
      · by_cases hyx : strLtB y x = true
        · simp [hxy, hyx] at h2
        · have : x = y :=
            strLtB_eq_of_not (by simpa using hxy) (by simpa using hyx)
          subst this
          simp [hxy] at h1 h2
          exact congrArg (x :: ·) (ih h1 h2)

theorem pathLtB_asymm {a b : List String} (h : pathLtB a b = true) :
    pathLtB b a = false := by
  by_contra hb
  have hb' : pathLtB b a = true := by
    cases hba : pathLtB b a with
    | false => exact absurd hba hb
    | true => rfl
  have := pathLtB_trans h hb'
  simp [pathLtB_irrefl] at this

/-! ### Concrete evaluations of the save/remove paths -/

/-- C3: the claim requires that after `saveOverlays(b, {k: m})` succeeds,
`getOverlay(k)` returns `(b, m)` on both cache variants.  The persistent
variant does behave that way, but the in-memory `saveOverlays` never
succeeds on a present mutation: `overlayByBatchId.get(largestBatchId)` is
`undefined` (the `=== null` guard that should create the bucket never
fires), so the call throws a `TypeError` right after inserting into the
forward map. -/
theorem c3_memory_saveOverlays_throws :
    memSaveOverlays 1 [(exKey, some exMut)] memEmpty = .threw exCrashState
    ∧ idbSaveOverlays 1 [(exKey, some exMut)] [] = .ok [(exKey, ⟨1, some exMut⟩)]
    ∧ idbGetOverlay [(exKey, ⟨1, some exMut⟩)] exKey = some ⟨1, some exMut⟩ := by
  decide

/-- C4: the claim asserts that in every reachable state of the in-memory
cache, `k ∈ overlayByBatchId[b]` iff the stored overlay for `k` has
`largestBatchId = b`.  Already the first `saveOverlays(1, {exKey: exMut})`
on the empty cache leaves a state (carried by the thrown `TypeError`) whose
forward map stores an overlay with largest batch id 1 for `exKey` while the
inverted index has no bucket for 1 at all. -/
theorem c4_memory_index_inconsistent :
    memSaveOverlays 1 [(exKey, some exMut)] memEmpty = .threw exCrashState
    ∧ memGetOverlay exCrashState exKey = some ⟨1, some exMut⟩
    ∧ jsMapGet exCrashState.overlayByBatchId 1 = none := by
  decide

/-- C5: the claim asserts `removeOverlaysForBatchId(b)` removes exactly the
overlays whose `largestBatchId = b`.  In the reachable state `exCrashState`
the inverted index is empty, so `removeOverlaysForBatchId(1)` is a no-op and
the overlay with largest batch id 1 survives it. -/
theorem c5_remove_misses_overlay :
    memRemoveOverlaysForBatchId 1 exCrashState = exCrashState
    ∧ memGetOverlay (memRemoveOverlaysForBatchId 1 exCrashState) exKey
        = some ⟨1, some exMut⟩ := by
  decide

/-- C8: the claim asserts entries with absent mutations are skipped on both
variants.  The in-memory `saveOverlay` does return immediately on a `null`
mutation; the persistent `saveOverlays` has no such check — it wraps the
absent mutation in an overlay and hands it to `put(toDbDocumentOverlay(...))`,
which faults instead of skipping. -/
theorem c8_persistent_does_not_skip :
    (∀ (b : Int) (s : MemoryOverlayState), memSaveOverlay b none s = .ok s)
    ∧ memSaveOverlays 5 [(exKey, none)] memEmpty = .ok memEmpty
    ∧ idbSaveOverlays 5 [(exKey, none)] [] = .threw []
    ∧ idbSaveOverlays 5 [(exKey, none)] [(exKey, ⟨3, some exMut⟩)]
        = .threw [(exKey, ⟨3, some exMut⟩)] := by
  exact ⟨fun _ _ => rfl, by decide, by decide, by decide⟩

/-! ### The point-read path -/

/-- C7: `getDocument(k)` chooses its base document from the remote cache
exactly when the overlay is absent or a patch (and then performs the single
remote read recorded as `[k]`); otherwise it synthesizes an invalid document
without reading the remote cache; whenever an overlay is present its
mutation is applied to that base with the current timestamp. -/
theorem c7_getDocument_base_selection
    (cache : DocumentKey → Option OverlayM) (remote : DocumentKey → MutableDocumentM)
    (applyMu : Option MutationM → MutableDocumentM → Int → MutableDocumentM)
    (now : Int) (k : DocumentKey) :
    (cache k = none → lvGetDocument cache remote applyMu now k = (remote k, [k]))
    ∧ (∀ o, cache k = some o → overlayMutationIsPatch o = true →
        lvGetDocument cache remote applyMu now k = (applyMu o.mutation (remote k) now, [k]))
    ∧ (∀ o, cache k = some o → overlayMutationIsPatch o = false →
        lvGetDocument cache remote applyMu now k
          = (applyMu o.mutation (MutableDocumentM.invalidDoc k) now, [])) := by
  refine ⟨fun h => ?_, fun o h hp => ?_, fun o h hp => ?_⟩
  · simp [lvGetDocument, getBaseDocument, h]
  · simp [lvGetDocument, getBaseDocument, h, hp]
  · simp [lvGetDocument, getBaseDocument, h, hp]

/-- Witness for C7: the three base-selection cases evaluated at concrete
inputs (no overlay; a patch overlay; a set overlay). -/
theorem c7_getDocument_witness :
    lvGetDocument (fun _ => none) (fun k => .foundDoc k 9) (fun _ d _ => d) 7 exKey
        = (.foundDoc exKey 9, [exKey])
    ∧ lvGetDocument (fun _ => some ⟨4, some (.patch exKey 1)⟩) (fun k => .foundDoc k 9)
        (fun _ d _ => d) 7 exKey = (.foundDoc exKey 9, [exKey])
    ∧ lvGetDocument (fun _ => some ⟨4, some (.setM exKey 0)⟩) (fun k => .foundDoc k 9)
        (fun _ d _ => d) 7 exKey = (.invalidDoc exKey, []) := by
  refine ⟨?_, ?_, ?_⟩
  · exact (c7_getDocument_base_selection (fun _ => none) (fun k => .foundDoc k 9)
      (fun _ d _ => d) 7 exKey).1 rfl
  · exact (c7_getDocument_base_selection (fun _ => some ⟨4, some (.patch exKey 1)⟩)
      (fun k => .foundDoc k 9) (fun _ d _ => d) 7 exKey).2.1 ⟨4, some (.patch exKey 1)⟩ rfl rfl
  · exact (c7_getDocument_base_selection (fun _ => some ⟨4, some (.setM exKey 0)⟩)
      (fun k => .foundDoc k 9) (fun _ d _ => d) 7 exKey).2.2 ⟨4, some (.setM exKey 0)⟩ rfl rfl

/-! ### The bulk-read frame property -/

theorem affectingBatches_nil (queue : List MutationBatchM) :
    affectingBatches queue [] = [] := by
  simp [affectingBatches, jsMapGet]

theorem recalc_nil_docs (env : RecalcEnv) (queue : List MutationBatchM)
    (cache : List (DocumentKey × OverlayM)) :
    recalculateAndSaveOverlays env queue cache [] = ⟨cache, [], []⟩ := by
  unfold recalculateAndSaveOverlays
  rw [affectingBatches_nil]
  rfl

/-- C10: with an empty `existenceStateChanged` set — which is what
`getDocuments` always passes — `computeViews` marks no document for
recalculation, `recalculateAndSaveOverlays` receives an empty document map
and issues no `saveOverlays` call, and the overlay cache is left
unchanged. -/
theorem c10_read_path_leaves_overlay_cache (env : RecalcEnv)
    (applyMu : Option MutationM → MutableDocumentM → Int → MutableDocumentM)
    (now : Int) (queue : List MutationBatchM) (cache : List (DocumentKey × OverlayM))
    (docs : List (DocumentKey × MutableDocumentM))
    (memoizedOverlays : List (DocumentKey × OverlayM)) :
    (computeViews env applyMu now queue cache docs memoizedOverlays []).recalculateDocuments = []
    ∧ (computeViews env applyMu now queue cache docs memoizedOverlays []).saveCalls = []
    ∧ (computeViews env applyMu now queue cache docs memoizedOverlays []).cache = cache
    ∧ ∀ (remote : DocumentKey → MutableDocumentM) (keys : List DocumentKey),
        (lvGetDocuments env applyMu now queue cache remote keys).recalculateDocuments = []
        ∧ (lvGetDocuments env applyMu now queue cache remote keys).saveCalls = []
        ∧ (lvGetDocuments env applyMu now queue cache remote keys).cache = cache := by
  have h : ∀ (ds : List (DocumentKey × MutableDocumentM))
      (memo : List (DocumentKey × OverlayM)),
      (computeViews env applyMu now queue cache ds memo []).recalculateDocuments = []
      ∧ (computeViews env applyMu now queue cache ds memo []).saveCalls = []
      ∧ (computeViews env applyMu now queue cache ds memo []).cache = cache := by
    intro ds memo
    simp [computeViews, cvMarksForRecalc, recalc_nil_docs]
  exact ⟨(h docs memoizedOverlays).1, (h docs memoizedOverlays).2.1,
    (h docs memoizedOverlays).2.2,
    fun remote keys => h (keys.map (fun k => (k, remote k))) []⟩

/-! ### Association-list lemmas -/

theorem jsMapGet_set_same {κ α : Type} [DecidableEq κ] (m : List (κ × α)) (k : κ) (v : α) :
    jsMapGet (jsMapSet m k v) k = some v := by
  induction m with
  | nil => simp [jsMapSet, jsMapGet]
  | cons e rest ih =>
    by_cases h : e.1 = k
    · simp [jsMapSet, jsMapGet, h]
    · simp [jsMapSet, jsMapGet, h, ih]

theorem jsMapGet_set_other {κ α : Type} [DecidableEq κ] (m : List (κ × α)) (k k' : κ) (v : α)
    (h : k' ≠ k) : jsMapGet (jsMapSet m k v) k' = jsMapGet m k' := by
  have h' : k ≠ k' := Ne.symm h
  induction m with
  | nil => simp [jsMapSet, jsMapGet, h']
  | cons e rest ih =>
    by_cases he : e.1 = k
    · simp [jsMapSet, jsMapGet, he, h']
    · simp only [jsMapSet, he, if_false, jsMapGet]
      by_cases he' : e.1 = k'
      · simp [he']
      · simp [he', ih]

theorem jsMapGet_none_iff {κ α : Type} [DecidableEq κ] (m : List (κ × α)) (k : κ) :
    jsMapGet m k = none ↔ k ∉ m.map Prod.fst := by
  induction m with
  | nil => simp [jsMapGet]
  | cons e rest ih =>
    by_cases h : e.1 = k
    · simp [jsMapGet, h]
    · simp [jsMapGet, h, ih, Ne.symm h]

theorem jsMapGet_mem {κ α : Type} [DecidableEq κ] {m : List (κ × α)} {k : κ} {v : α}
    (h : jsMapGet m k = some v) : (k, v) ∈ m := by
  induction m with
  | nil => simp [jsMapGet] at h
  | cons e rest ih =>
    by_cases he : e.1 = k
    · simp only [jsMapGet, he, if_true, Option.some.injEq] at h
      subst h
      rw [show (k, e.2) = e from Prod.ext he.symm rfl]
      exact List.mem_cons_self e rest
    · simp only [jsMapGet, he, if_false] at h
      exact List.mem_cons_of_mem e (ih h)

theorem jsSetAdd_mem {κ : Type} [DecidableEq κ] (s : List κ) (k k' : κ) :
    k' ∈ jsSetAdd s k ↔ k' ∈ s ∨ k' = k := by
  unfold jsSetAdd
  by_cases h : k ∈ s
  · simp only [h, if_true]
    constructor
    · exact Or.inl
    · rintro (hh | rfl)
      · exact hh
      · exact h
  · simp [h]

theorem sortedInsertBy_int_eq (m : List (Int × List DocumentKey)) (k : Int)
    (v : List DocumentKey) :
    sortedInsertBy intLtB m k v =
      match m with
      | [] => [(k, v)]
      | e :: rest =>
        if k < e.1 then (k, v) :: e :: rest
        else if e.1 < k then e :: sortedInsertBy intLtB rest k v
        else (k, v) :: rest := by
  cases m with
  | nil => rfl
  | cons e rest => simp [sortedInsertBy, intLtB]

theorem sortedInsertBy_get_same (m : List (Int × List DocumentKey)) (k : Int)
    (v : List DocumentKey) : jsMapGet (sortedInsertBy intLtB m k v) k = some v := by
  induction m with
  | nil => simp [sortedInsertBy, jsMapGet]
  | cons e rest ih =>
    rw [sortedInsertBy_int_eq]
    rcases lt_trichotomy k e.1 with h1 | h1 | h1
    · simp [h1, jsMapGet]
    · simp [h1.symm, lt_irrefl, jsMapGet]
    · have hne : e.1 ≠ k := ne_of_lt h1
      simp [not_lt.mpr (le_of_lt h1), h1, jsMapGet, hne, ih]

theorem sortedInsertBy_get_other (m : List (Int × List DocumentKey)) (k k' : Int)
    (v : List DocumentKey) (h : k' ≠ k) :
    jsMapGet (sortedInsertBy intLtB m k v) k' = jsMapGet m k' := by
  have h' : k ≠ k' := Ne.symm h
  induction m with
  | nil => simp [sortedInsertBy, jsMapGet, h']
  | cons e rest ih =>
    rw [sortedInsertBy_int_eq]
    rcases lt_trichotomy k e.1 with h1 | h1 | h1
    · simp [h1, jsMapGet, h']
    · simp [h1.symm, lt_irrefl, jsMapGet, h']
    · simp only [not_lt.mpr (le_of_lt h1), if_false, h1, if_true, jsMapGet]
      by_cases he : e.1 = k'
      · simp [he]
      · simp [he, ih]

theorem sortedInsertBy_mem {m : List (Int × List DocumentKey)} {k : Int}
    {v : List DocumentKey} {x : Int × List DocumentKey}
    (h : x ∈ sortedInsertBy intLtB m k v) : x = (k, v) ∨ x ∈ m := by
  induction m with
  | nil =>
    simp [sortedInsertBy] at h
    exact Or.inl h
  | cons e rest ih =>
    rw [sortedInsertBy_int_eq] at h
    rcases lt_trichotomy k e.1 with h1 | h1 | h1
    · simp only [h1, if_true, List.mem_cons] at h
      rcases h with h | h | h
      · exact Or.inl h
      · exact Or.inr (List.mem_cons.mpr (Or.inl h))
      · exact Or.inr (List.mem_cons.mpr (Or.inr h))
    · simp only [h1.symm, lt_irrefl, if_false, List.mem_cons] at h
      rcases h with h | h
      · exact Or.inl h
      · exact Or.inr (List.mem_cons.mpr (Or.inr h))
    · simp only [not_lt.mpr (le_of_lt h1), if_false, h1, if_true, List.mem_cons] at h
      rcases h with h | h
      · exact Or.inr (List.mem_cons.mpr (Or.inl h))
      · rcases ih h with hh | hh
        · exact Or.inl hh
        · exact Or.inr (List.mem_cons.mpr (Or.inr hh))

theorem sortedInsertBy_keys_sorted (m : List (Int × List DocumentKey)) (k : Int)
    (v : List DocumentKey)
    (hs : List.Pairwise (fun a b => a < b) (m.map Prod.fst)) :
    List.Pairwise (fun a b => a < b) ((sortedInsertBy intLtB m k v).map Prod.fst) := by
  induction m with
  | nil => simp [sortedInsertBy]
  | cons e rest ih =>
    simp only [List.map_cons, List.pairwise_cons] at hs
    rw [sortedInsertBy_int_eq]
    rcases lt_trichotomy k e.1 with h1 | h1 | h1
    · simp only [h1, if_true, List.map_cons, List.pairwise_cons]
      refine ⟨?_, hs.1, hs.2⟩
      intro x hx
      simp only [List.mem_cons] at hx
      rcases hx with rfl | hx
      · exact h1
      · exact lt_trans h1 (hs.1 x hx)
    · simp only [h1.symm, lt_irrefl, if_false, List.map_cons, List.pairwise_cons]
      exact ⟨fun x hx => h1 ▸ hs.1 x hx, hs.2⟩
    · simp only [not_lt.mpr (le_of_lt h1), if_false, h1, if_true, List.map_cons,
        List.pairwise_cons]
      refine ⟨?_, ih hs.2⟩
      intro x hx
      simp only [List.mem_map] at hx
      obtain ⟨p, hp, rfl⟩ := hx
      rcases sortedInsertBy_mem hp with rfl | hp'
      · exact h1
      · exact hs.1 p.1 (List.mem_map.mpr ⟨p, hp', rfl⟩)

/-! ### The reverse-lookup map built by `recalculateAndSaveOverlays` -/

theorem jsMapSet_map_fst {κ α : Type} [DecidableEq κ] (m : List (κ × α)) (k : κ) (v : α)
    (h : jsMapGet m k ≠ none) : (jsMapSet m k v).map Prod.fst = m.map Prod.fst := by
  induction m with
  | nil => simp [jsMapGet] at h
  | cons e rest ih =>
    by_cases he : e.1 = k
    · simp [jsMapSet, he]
    · simp only [jsMapGet, he, if_false] at h
      simp [jsMapSet, he, ih h]

theorem recalcKeyStep_byId (env : RecalcEnv) (batch : MutationBatchM)
    (st : RecalcPass1) (k : DocumentKey) :
    (recalcKeyStep env batch st k).byId =
      jsMapSet
        (if (jsMapGet st.byId batch.batchId).isNone then
          sortedInsertBy intLtB st.byId batch.batchId []
        else st.byId)
        batch.batchId
        (jsSetAdd ((jsMapGet st.byId batch.batchId).getD []) k) := by
  unfold recalcKeyStep
  cases hg : jsMapGet st.byId batch.batchId with
  | none => simp [sortedGet, hg, sortedInsertBy_get_same]
  | some bucket => simp [sortedGet, hg]

theorem recalcKeyStep_byId_get (env : RecalcEnv) (batch : MutationBatchM)
    (st : RecalcPass1) (k : DocumentKey) (b : Int) :
    jsMapGet (recalcKeyStep env batch st k).byId b =
      if b = batch.batchId then
        some (jsSetAdd ((jsMapGet st.byId batch.batchId).getD []) k)
      else jsMapGet st.byId b := by
  rw [recalcKeyStep_byId]
  by_cases hb : b = batch.batchId
  · subst hb
    simp [jsMapGet_set_same]
  · rw [jsMapGet_set_other _ _ _ _ hb, if_neg hb]
    by_cases hn : (jsMapGet st.byId batch.batchId).isNone = true
    · rw [if_pos hn, sortedInsertBy_get_other _ _ _ _ hb]
    · rw [if_neg hn]

theorem recalcKeyStep_inBucket (env : RecalcEnv) (batch : MutationBatchM)
    (st : RecalcPass1) (k : DocumentKey) (b : Int) (k' : DocumentKey) :
    (∃ bucket, jsMapGet (recalcKeyStep env batch st k).byId b = some bucket ∧ k' ∈ bucket)
      ↔ (∃ bucket, jsMapGet st.byId b = some bucket ∧ k' ∈ bucket)
        ∨ (b = batch.batchId ∧ k' = k) := by
  rw [recalcKeyStep_byId_get]
  by_cases hb : b = batch.batchId
  · subst hb
    rw [if_pos rfl]
    constructor
    · rintro ⟨bucket, hbk, hmem⟩
      obtain rfl : jsSetAdd ((jsMapGet st.byId batch.batchId).getD []) k = bucket :=
        Option.some.inj hbk
      rw [jsSetAdd_mem] at hmem
      rcases hmem with hmem | rfl
      · cases hg : jsMapGet st.byId batch.batchId with
        | none => simp [hg] at hmem
        | some bb =>
          rw [hg] at hmem
          exact Or.inl ⟨bb, rfl, by simpa using hmem⟩
      · exact Or.inr ⟨rfl, rfl⟩
    · rintro (⟨bucket, hg, hmem⟩ | ⟨-, rfl⟩)
      · exact ⟨_, rfl, (jsSetAdd_mem _ _ _).mpr (Or.inl (by simp [hg, hmem]))⟩
      · exact ⟨_, rfl, (jsSetAdd_mem _ _ _).mpr (Or.inr rfl)⟩
  · simp [hb]

theorem recalcKeys_fold_inBucket (env : RecalcEnv) (batch : MutationBatchM)
    (ks : List DocumentKey) :
    ∀ (st : RecalcPass1) (b : Int) (k' : DocumentKey),
    (∃ bucket, jsMapGet (ks.foldl (recalcKeyStep env batch) st).byId b = some bucket ∧ k' ∈ bucket)
      ↔ (∃ bucket, jsMapGet st.byId b = some bucket ∧ k' ∈ bucket)
        ∨ (b = batch.batchId ∧ k' ∈ ks) := by
  induction ks with
  | nil => simp
  | cons k0 rest ih =>
    intro st b k'
    simp only [List.foldl_cons]
    rw [ih, recalcKeyStep_inBucket]
    simp only [List.mem_cons]
    constructor
    · rintro ((h | ⟨rfl, rfl⟩) | ⟨rfl, hmem⟩)
      · exact Or.inl h
      · exact Or.inr ⟨rfl, Or.inl rfl⟩
      · exact Or.inr ⟨rfl, Or.inr hmem⟩
    · rintro (h | ⟨rfl, (rfl | hmem)⟩)
      · exact Or.inl (Or.inl h)
      · exact Or.inl (Or.inr ⟨rfl, rfl⟩)
      · exact Or.inr ⟨rfl, hmem⟩

theorem recalcPass1_fold_inBucket (env : RecalcEnv) (batches : List MutationBatchM) :
    ∀ (st : RecalcPass1) (b : Int) (k' : DocumentKey),
    (∃ bucket,
        jsMapGet
          (batches.foldl (fun s batch => batch.keys.foldl (recalcKeyStep env batch) s) st).byId b
          = some bucket ∧ k' ∈ bucket)
      ↔ (∃ bucket, jsMapGet st.byId b = some bucket ∧ k' ∈ bucket)
        ∨ ∃ batch ∈ batches, batch.batchId = b ∧ k' ∈ batch.keys := by
  induction batches with
  | nil => simp
  | cons batch rest ih =>
    intro st b k'
    simp only [List.foldl_cons]
    rw [ih, recalcKeys_fold_inBucket]
    simp only [List.mem_cons]
    constructor
    · rintro ((h | ⟨rfl, hmem⟩) | ⟨batch', hb', hid, hmem⟩)
      · exact Or.inl h
      · exact Or.inr ⟨batch, Or.inl rfl, rfl, hmem⟩
      · exact Or.inr ⟨batch', Or.inr hb', hid, hmem⟩
    · rintro (h | ⟨batch', (rfl | hb'), hid, hmem⟩)
      · exact Or.inl (Or.inl h)
      · exact Or.inl (Or.inr ⟨hid.symm, hmem⟩)
      · exact Or.inr ⟨batch', hb', hid, hmem⟩

theorem mem_touchingIds (batches : List MutationBatchM) (k : DocumentKey) (b : Int) :
    b ∈ touchingIds batches k ↔ ∃ batch ∈ batches, batch.batchId = b ∧ k ∈ batch.keys := by
  unfold touchingIds
  simp only [List.mem_map, List.mem_filter, decide_eq_true_eq]
  constructor
  · rintro ⟨batch, ⟨hb, hk⟩, rfl⟩
    exact ⟨batch, hb, rfl, hk⟩
  · rintro ⟨batch, hb, rfl, hk⟩
    exact ⟨batch, ⟨hb, hk⟩, rfl⟩

theorem recalcPass1_inBucket (env : RecalcEnv) (batches : List MutationBatchM)
    (docs : List (DocumentKey × MutableDocumentM)) (b : Int) (k' : DocumentKey) :
    (∃ bucket, jsMapGet (recalcPass1 env batches docs).byId b = some bucket ∧ k' ∈ bucket)
      ↔ b ∈ touchingIds batches k' := by
  unfold recalcPass1
  rw [recalcPass1_fold_inBucket, mem_touchingIds]
  simp [jsMapGet]

theorem recalcKeyStep_byId_sorted (env : RecalcEnv) (batch : MutationBatchM)
    (st : RecalcPass1) (k : DocumentKey)
    (hs : List.Pairwise (fun a b => a < b) (st.byId.map Prod.fst)) :
    List.Pairwise (fun a b => a < b) ((recalcKeyStep env batch st k).byId.map Prod.fst) := by
  rw [recalcKeyStep_byId]
  have hs0 : List.Pairwise (fun a b => a < b)
      ((if (jsMapGet st.byId batch.batchId).isNone then
          sortedInsertBy intLtB st.byId batch.batchId []
        else st.byId).map Prod.fst) := by
    by_cases hn : (jsMapGet st.byId batch.batchId).isNone = true
    · rw [if_pos hn]
      exact sortedInsertBy_keys_sorted _ _ _ hs
    · rw [if_neg hn]
      exact hs
  have hget : jsMapGet
      (if (jsMapGet st.byId batch.batchId).isNone then
        sortedInsertBy intLtB st.byId batch.batchId []
      else st.byId) batch.batchId ≠ none := by
    by_cases hn : (jsMapGet st.byId batch.batchId).isNone = true
    · rw [if_pos hn, sortedInsertBy_get_same]
      simp
    · rw [if_neg hn]
      intro hh
      rw [hh] at hn
      simp at hn
  rw [jsMapSet_map_fst _ _ _ hget]
  exact hs0

theorem recalcPass1_byId_sorted (env : RecalcEnv) (batches : List MutationBatchM)
    (docs : List (DocumentKey × MutableDocumentM)) :
    List.Pairwise (fun a b => a < b) ((recalcPass1 env batches docs).byId.map Prod.fst) := by
  unfold recalcPass1
  have hgen : ∀ (bs : List MutationBatchM) (st : RecalcPass1),
      List.Pairwise (fun a b => a < b) (st.byId.map Prod.fst) →
      List.Pairwise (fun a b => a < b)
        ((bs.foldl (fun s batch => batch.keys.foldl (recalcKeyStep env batch) s) st).byId.map
          Prod.fst) := by
    intro bs
    induction bs with
    | nil => intro st h; exact h
    | cons batch rest ih =>
      intro st h
      simp only [List.foldl_cons]
      refine ih _ ?_
      have hkeys : ∀ (ks : List DocumentKey) (st' : RecalcPass1),
          List.Pairwise (fun a b => a < b) (st'.byId.map Prod.fst) →
          List.Pairwise (fun a b => a < b)
            ((ks.foldl (recalcKeyStep env batch) st').byId.map Prod.fst) := by
        intro ks
        induction ks with
        | nil => intro st' h'; exact h'
        | cons k0 krest kih =>
          intro st' h'
          simp only [List.foldl_cons]
          exact kih _ (recalcKeyStep_byId_sorted env batch st' k0 h')
      exact hkeys batch.keys st h
  exact hgen batches ⟨docs, [], []⟩ (by simp)

/-! ### The descending save pass of `recalculateAndSaveOverlays` -/

theorem recalcBucketEntries_foldl_processed (env : RecalcEnv)
    (docs : List (DocumentKey × MutableDocumentM))
    (masks : List (DocumentKey × Option FieldMaskM)) (ks : List DocumentKey) :
    ∀ (acc : List (DocumentKey × Option MutationM) × List DocumentKey) (k' : DocumentKey),
    (k' ∈ (ks.foldl
        (fun acc k =>
          if k ∈ acc.2 then acc
          else
            (jsMapSet acc.1 k
              (env.calcOverlayMutation (jsMapGet docs k) ((jsMapGet masks k).join)),
              acc.2 ++ [k]))
        acc).2
      ↔ k' ∈ acc.2 ∨ k' ∈ ks) := by
  induction ks with
  | nil => simp
  | cons k0 rest ih =>
    intro acc k'
    simp only [List.foldl_cons]
    rw [ih]
    by_cases h0 : k0 ∈ acc.2
    · simp only [h0, if_true, List.mem_cons]
      constructor
      · rintro (h | h)
        · exact Or.inl h
        · exact Or.inr (Or.inr h)
      · rintro (h | rfl | h)
        · exact Or.inl h
        · exact Or.inl h0
        · exact Or.inr h
    · simp only [h0, if_false, List.mem_append, List.mem_cons, List.not_mem_nil, or_false]
      constructor
      · rintro ((h | rfl) | h)
        · exact Or.inl h
        · exact Or.inr (Or.inl rfl)
        · exact Or.inr (Or.inr h)
      · rintro (h | rfl | h)
        · exact Or.inl (Or.inl h)
        · exact Or.inl (Or.inr rfl)
        · exact Or.inr h

theorem recalcBucketEntries_processed (env : RecalcEnv)
    (docs : List (DocumentKey × MutableDocumentM))
    (masks : List (DocumentKey × Option FieldMaskM)) (processed ks : List DocumentKey)
    (k' : DocumentKey) :
    k' ∈ (recalcBucketEntries env docs masks processed ks).2
      ↔ k' ∈ processed ∨ k' ∈ ks := by
  unfold recalcBucketEntries
  exact recalcBucketEntries_foldl_processed env docs masks ks ([], processed) k'

theorem recalcBucketEntries_foldl_staged (env : RecalcEnv)
    (docs : List (DocumentKey × MutableDocumentM))
    (masks : List (DocumentKey × Option FieldMaskM)) (ks : List DocumentKey) :
    ∀ (acc : List (DocumentKey × Option MutationM) × List DocumentKey) (k' : DocumentKey),
    (jsMapGet (ks.foldl
        (fun acc k =>
          if k ∈ acc.2 then acc
          else
            (jsMapSet acc.1 k
              (env.calcOverlayMutation (jsMapGet docs k) ((jsMapGet masks k).join)),
              acc.2 ++ [k]))
        acc).1 k' ≠ none
      ↔ jsMapGet acc.1 k' ≠ none ∨ (k' ∈ ks ∧ k' ∉ acc.2)) := by
  induction ks with
  | nil => simp
  | cons k0 rest ih =>
    intro acc k'
    simp only [List.foldl_cons]
    rw [ih]
    by_cases h0 : k0 ∈ acc.2
    · simp only [h0, if_true, List.mem_cons]
      constructor
      · rintro (h | ⟨hmem, hnp⟩)
        · exact Or.inl h
        · exact Or.inr ⟨Or.inr hmem, hnp⟩
      · rintro (h | ⟨(rfl | hmem), hnp⟩)
        · exact Or.inl h
        · exact absurd h0 hnp
        · exact Or.inr ⟨hmem, hnp⟩
    · simp only [h0, if_false, List.mem_cons, List.mem_append, List.not_mem_nil, or_false]
      by_cases hk : k' = k0
      · subst hk
        rw [jsMapGet_set_same]
        simp [h0]
      · rw [jsMapGet_set_other _ _ _ _ hk]
        constructor
        · rintro (h | ⟨hmem, hnp⟩)
          · exact Or.inl h
          · exact Or.inr ⟨Or.inr hmem, fun hh => hnp (Or.inl hh)⟩
        · rintro (h | ⟨(rfl | hmem), hnp⟩)
          · exact Or.inl h
          · exact absurd rfl hk
          · exact Or.inr ⟨hmem, fun hh => hh.elim hnp hk⟩

theorem recalcBucketEntries_staged (env : RecalcEnv)
    (docs : List (DocumentKey × MutableDocumentM))
    (masks : List (DocumentKey × Option FieldMaskM)) (processed ks : List DocumentKey)
    (k' : DocumentKey) :
    jsMapGet (recalcBucketEntries env docs masks processed ks).1 k' ≠ none
      ↔ k' ∈ ks ∧ k' ∉ processed := by
  unfold recalcBucketEntries
  rw [recalcBucketEntries_foldl_staged env docs masks ks ([], processed) k']
  simp [jsMapGet]

theorem recalcBucketEntries_foldl_val (env : RecalcEnv)
    (docs : List (DocumentKey × MutableDocumentM))
    (masks : List (DocumentKey × Option FieldMaskM)) (k : DocumentKey) :
    ∀ (ks : List DocumentKey) (acc : List (DocumentKey × Option MutationM) × List DocumentKey),
    (k ∈ acc.2 →
      jsMapGet (ks.foldl
        (fun acc k =>
          if k ∈ acc.2 then acc
          else
            (jsMapSet acc.1 k
              (env.calcOverlayMutation (jsMapGet docs k) ((jsMapGet masks k).join)),
              acc.2 ++ [k]))
        acc).1 k = jsMapGet acc.1 k)
    ∧ (k ∉ acc.2 → k ∈ ks →
      jsMapGet (ks.foldl
        (fun acc k =>
          if k ∈ acc.2 then acc
          else
            (jsMapSet acc.1 k
              (env.calcOverlayMutation (jsMapGet docs k) ((jsMapGet masks k).join)),
              acc.2 ++ [k]))
        acc).1 k
        = some (env.calcOverlayMutation (jsMapGet docs k) ((jsMapGet masks k).join))) := by
  intro ks
  induction ks with
  | nil =>
    intro acc
    exact ⟨fun _ => rfl, fun _ h => absurd h (List.not_mem_nil k)⟩
  | cons k0 rest ih =>
    intro acc
    simp only [List.foldl_cons]
    by_cases h0 : k0 ∈ acc.2
    · rw [if_pos h0]
      refine ⟨(ih acc).1, fun hnp hmem => ?_⟩
      rcases List.mem_cons.mp hmem with rfl | hmem'
      · exact absurd h0 hnp
      · exact (ih acc).2 hnp hmem'
    · rw [if_neg h0]
      constructor
      · intro hp
        have hne : k ≠ k0 := fun hc => h0 (hc ▸ hp)
        have hp' : k ∈ (acc.2 ++ [k0]) := List.mem_append.mpr (Or.inl hp)
        rw [(ih _).1 hp']
        exact jsMapGet_set_other _ _ _ _ hne
      · intro hnp hmem
        by_cases hk : k = k0
        · subst hk
          have hp' : k ∈ (acc.2 ++ [k]) := List.mem_append.mpr (Or.inr (by simp))
          rw [(ih _).1 hp']
          exact jsMapGet_set_same _ _ _
        · have hnp' : k ∉ (acc.2 ++ [k0]) := by
            rw [List.mem_append]
            rintro (hc | hc)
            · exact hnp hc
            · exact hk (by simpa using hc)
          have hmem' : k ∈ rest := by
            rcases List.mem_cons.mp hmem with rfl | h
            · exact absurd rfl hk
            · exact h
          exact (ih _).2 hnp' hmem'

theorem recalcBucketEntries_staged_val (env : RecalcEnv)
    (docs : List (DocumentKey × MutableDocumentM))
    (masks : List (DocumentKey × Option FieldMaskM)) (processed ks : List DocumentKey)
    (k : DocumentKey) (hmem : k ∈ ks) (hnp : k ∉ processed) :
    jsMapGet (recalcBucketEntries env docs masks processed ks).1 k
      = some (env.calcOverlayMutation (jsMapGet docs k) ((jsMapGet masks k).join)) := by
  unfold recalcBucketEntries
  exact (recalcBucketEntries_foldl_val env docs masks k ks ([], processed)).2 hnp hmem

theorem contractSaveOverlays_unstaged (b : Int) (es : List (DocumentKey × Option MutationM))
    (c : List (DocumentKey × OverlayM)) (k : DocumentKey) (h : jsMapGet es k = none) :
    jsMapGet (contractSaveOverlays b es c) k = jsMapGet c k := by
  induction es generalizing c with
  | nil => rfl
  | cons e rest ih =>
    obtain ⟨ek, em⟩ := e
    by_cases he : ek = k
    · simp [jsMapGet, he] at h
    · simp only [jsMapGet, he, if_false] at h
      unfold contractSaveOverlays at ih ⊢
      simp only [List.foldl_cons]
      cases em with
      | none => exact ih _ h
      | some mu => rw [ih _ h, jsMapGet_set_other _ _ _ _ (Ne.symm he)]

theorem contractSaveOverlays_present (b : Int) (es : List (DocumentKey × Option MutationM))
    (c : List (DocumentKey × OverlayM)) (k : DocumentKey) (mu : MutationM)
    (hnd : (es.map Prod.fst).Nodup) (h : jsMapGet es k = some (some mu)) :
    jsMapGet (contractSaveOverlays b es c) k = some ⟨b, some mu⟩ := by
  induction es generalizing c with
  | nil => simp [jsMapGet] at h
  | cons e rest ih =>
    obtain ⟨ek, em⟩ := e
    simp only [List.map_cons, List.nodup_cons] at hnd
    by_cases he : ek = k
    · subst he
      simp [jsMapGet] at h
      subst h
      unfold contractSaveOverlays
      simp only [List.foldl_cons]
      have hrest : jsMapGet rest ek = none := (jsMapGet_none_iff rest ek).mpr hnd.1
      rw [show (rest.foldl
            (fun c e => match e.2 with
              | some m => jsMapSet c e.1 (⟨b, some m⟩ : OverlayM)
              | none => c)
            (jsMapSet c ek ⟨b, some mu⟩))
          = contractSaveOverlays b rest (jsMapSet c ek ⟨b, some mu⟩) from rfl]
      rw [contractSaveOverlays_unstaged _ _ _ _ hrest, jsMapGet_set_same]
    · simp only [jsMapGet, he, if_false] at h
      unfold contractSaveOverlays at ih ⊢
      simp only [List.foldl_cons]
      cases em with
      | none => exact ih _ hnd.2 h
      | some m0 => exact ih _ hnd.2 h

theorem contractSaveOverlays_skip (b : Int) (es : List (DocumentKey × Option MutationM))
    (c : List (DocumentKey × OverlayM)) (k : DocumentKey)
    (hnd : (es.map Prod.fst).Nodup) (h : jsMapGet es k = some none) :
    jsMapGet (contractSaveOverlays b es c) k = jsMapGet c k := by
  induction es generalizing c with
  | nil => simp [jsMapGet] at h
  | cons e rest ih =>
    obtain ⟨ek, em⟩ := e
    simp only [List.map_cons, List.nodup_cons] at hnd
    by_cases he : ek = k
    · subst he
      simp [jsMapGet] at h
      subst h
      unfold contractSaveOverlays
      simp only [List.foldl_cons]
      have hrest : jsMapGet rest ek = none := (jsMapGet_none_iff rest ek).mpr hnd.1
      exact contractSaveOverlays_unstaged b rest c ek hrest
    · simp only [jsMapGet, he, if_false] at h
      unfold contractSaveOverlays at ih ⊢
      simp only [List.foldl_cons]
      cases em with
      | none => exact ih _ hnd.2 h
      | some m0 =>
        rw [ih _ hnd.2 h, jsMapGet_set_other _ _ _ _ (Ne.symm he)]

theorem mem_jsMapSet_fst {κ α : Type} [DecidableEq κ] (m : List (κ × α)) (k : κ) (v : α)
    (x : κ) : x ∈ (jsMapSet m k v).map Prod.fst ↔ x ∈ m.map Prod.fst ∨ x = k := by
  induction m with
  | nil => simp [jsMapSet]
  | cons e rest ih =>
    by_cases he : e.1 = k
    · subst he
      simp [jsMapSet]
      tauto
    · simp only [jsMapSet, he, if_false, List.map_cons, List.mem_cons, ih]
      tauto

theorem jsMapSet_nodup_fst {κ α : Type} [DecidableEq κ] (m : List (κ × α)) (k : κ) (v : α)
    (h : (m.map Prod.fst).Nodup) : ((jsMapSet m k v).map Prod.fst).Nodup := by
  induction m with
  | nil => simp [jsMapSet]
  | cons e rest ih =>
    simp only [List.map_cons, List.nodup_cons] at h
    by_cases he : e.1 = k
    · rw [show jsMapSet (e :: rest) k v = (k, v) :: rest from by
        simp [jsMapSet, he]]
      simp only [List.map_cons, List.nodup_cons]
      exact ⟨he ▸ h.1, h.2⟩
    · simp only [jsMapSet, he, if_false, List.map_cons, List.nodup_cons]
      refine ⟨?_, ih h.2⟩
      rw [mem_jsMapSet_fst]
      rintro (hc | rfl)
      · exact h.1 hc
      · exact he rfl

theorem recalcBucketEntries_foldl_nodup (env : RecalcEnv)
    (docs : List (DocumentKey × MutableDocumentM))
    (masks : List (DocumentKey × Option FieldMaskM)) :
    ∀ (ks : List DocumentKey) (acc : List (DocumentKey × Option MutationM) × List DocumentKey),
    (acc.1.map Prod.fst).Nodup →
    ((ks.foldl
        (fun acc k =>
          if k ∈ acc.2 then acc
          else
            (jsMapSet acc.1 k
              (env.calcOverlayMutation (jsMapGet docs k) ((jsMapGet masks k).join)),
              acc.2 ++ [k]))
        acc).1.map Prod.fst).Nodup := by
  intro ks
  induction ks with
  | nil => intro acc h; exact h
  | cons k0 rest ih =>
    intro acc h
    simp only [List.foldl_cons]
    by_cases h0 : k0 ∈ acc.2
    · rw [if_pos h0]
      exact ih acc h
    · rw [if_neg h0]
      exact ih _ (jsMapSet_nodup_fst _ _ _ h)

theorem recalcBucketEntries_nodup (env : RecalcEnv)
    (docs : List (DocumentKey × MutableDocumentM))
    (masks : List (DocumentKey × Option FieldMaskM)) (processed ks : List DocumentKey) :
    ((recalcBucketEntries env docs masks processed ks).1.map Prod.fst).Nodup := by
  unfold recalcBucketEntries
  exact recalcBucketEntries_foldl_nodup env docs masks ks ([], processed) (by simp)

theorem recalcPass2_processed_noStage (env : RecalcEnv)
    (docs : List (DocumentKey × MutableDocumentM))
    (masks : List (DocumentKey × Option FieldMaskM)) :
    ∀ (l : List (Int × List DocumentKey)) (processed : List DocumentKey) (k : DocumentKey),
    k ∈ processed →
    ∀ call ∈ recalcPass2 env docs masks processed l, jsMapGet call.2 k = none := by
  intro l
  induction l with
  | nil => intro processed k _ call hc; simp [recalcPass2] at hc
  | cons p rest ih =>
    intro processed k hk call hc
    obtain ⟨b, ks⟩ := p
    simp only [recalcPass2, List.mem_cons] at hc
    rcases hc with rfl | hc
    · have := recalcBucketEntries_staged env docs masks processed ks k
      by_cases hn : jsMapGet (recalcBucketEntries env docs masks processed ks).1 k = none
      · exact hn
      · exact absurd hk (this.mp hn).2
    · refine ih _ k ?_ call hc
      exact (recalcBucketEntries_processed env docs masks processed ks k).mpr (Or.inl hk)

theorem foldCache_noStage (calls : List (Int × List (DocumentKey × Option MutationM)))
    (k : DocumentKey) :
    ∀ (cache : List (DocumentKey × OverlayM)),
    (∀ call ∈ calls, jsMapGet call.2 k = none) →
    jsMapGet (calls.foldl (fun c e => contractSaveOverlays e.1 e.2 c) cache) k
      = jsMapGet cache k := by
  induction calls with
  | nil => intro cache _; rfl
  | cons call rest ih =>
    intro cache h
    simp only [List.foldl_cons]
    rw [ih _ (fun c hc => h c (List.mem_cons_of_mem call hc)),
      contractSaveOverlays_unstaged _ _ _ _ (h call (List.mem_cons_self call rest))]

theorem recalcPass2_main (env : RecalcEnv)
    (docs : List (DocumentKey × MutableDocumentM))
    (masks : List (DocumentKey × Option FieldMaskM)) :
    ∀ (l : List (Int × List DocumentKey)) (processed : List DocumentKey)
      (cache : List (DocumentKey × OverlayM)) (k : DocumentKey), k ∉ processed →
    (firstBucket l k = none →
        jsMapGet ((recalcPass2 env docs masks processed l).foldl
            (fun c e => contractSaveOverlays e.1 e.2 c) cache) k = jsMapGet cache k
        ∧ ∀ call ∈ recalcPass2 env docs masks processed l, jsMapGet call.2 k = none)
    ∧ ∀ b, firstBucket l k = some b →
        ((∃ mu, env.calcOverlayMutation (jsMapGet docs k) ((jsMapGet masks k).join) = some mu
            ∧ jsMapGet ((recalcPass2 env docs masks processed l).foldl
                (fun c e => contractSaveOverlays e.1 e.2 c) cache) k = some ⟨b, some mu⟩)
          ∨ (env.calcOverlayMutation (jsMapGet docs k) ((jsMapGet masks k).join) = none
            ∧ jsMapGet ((recalcPass2 env docs masks processed l).foldl
                (fun c e => contractSaveOverlays e.1 e.2 c) cache) k = jsMapGet cache k))
        ∧ ∀ call ∈ recalcPass2 env docs masks processed l,
            jsMapGet call.2 k ≠ none → call.1 = b := by
  intro l
  induction l with
  | nil =>
    intro processed cache k _
    constructor
    · intro _
      exact ⟨rfl, by simp [recalcPass2]⟩
    · intro b hb
      simp [firstBucket] at hb
  | cons p rest ih =>
    intro processed cache k hk
    obtain ⟨b0, ks⟩ := p
    by_cases hmem : k ∈ ks
    · have hfb : firstBucket ((b0, ks) :: rest) k = some b0 := by
        simp [firstBucket, List.find?_cons_of_pos, hmem]
      have hval : jsMapGet (recalcBucketEntries env docs masks processed ks).1 k
          = some (env.calcOverlayMutation (jsMapGet docs k) ((jsMapGet masks k).join)) :=
        recalcBucketEntries_staged_val env docs masks processed ks k hmem hk
      have hnd := recalcBucketEntries_nodup env docs masks processed ks
      have hproc : k ∈ (recalcBucketEntries env docs masks processed ks).2 :=
        (recalcBucketEntries_processed env docs masks processed ks k).mpr (Or.inr hmem)
      have htail : ∀ call ∈ recalcPass2 env docs masks
          (recalcBucketEntries env docs masks processed ks).2 rest,
          jsMapGet call.2 k = none :=
        recalcPass2_processed_noStage env docs masks rest _ k hproc
      constructor
      · intro hnone
        rw [hfb] at hnone
        exact absurd hnone (by simp)
      · intro b hb
        rw [hfb] at hb
        obtain rfl : b0 = b := Option.some.inj hb
        constructor
        · cases hcalc : env.calcOverlayMutation (jsMapGet docs k) ((jsMapGet masks k).join) with
          | some mu =>
            left
            refine ⟨mu, rfl, ?_⟩
            show jsMapGet ((((b0, (recalcBucketEntries env docs masks processed ks).1) ::
                recalcPass2 env docs masks (recalcBucketEntries env docs masks processed ks).2
                  rest).foldl (fun c e => contractSaveOverlays e.1 e.2 c) cache)) k
              = some ⟨b0, some mu⟩
            simp only [List.foldl_cons]
            rw [foldCache_noStage _ _ _ htail]
            refine contractSaveOverlays_present b0 _ cache k mu hnd ?_
            rw [hcalc] at hval
            exact hval
          | none =>
            right
            refine ⟨rfl, ?_⟩
            show jsMapGet ((((b0, (recalcBucketEntries env docs masks processed ks).1) ::
                recalcPass2 env docs masks (recalcBucketEntries env docs masks processed ks).2
                  rest).foldl (fun c e => contractSaveOverlays e.1 e.2 c) cache)) k
              = jsMapGet cache k
            simp only [List.foldl_cons]
            rw [foldCache_noStage _ _ _ htail]
            refine contractSaveOverlays_skip b0 _ cache k hnd ?_
            rw [hcalc] at hval
            exact hval
        · intro call hc
          simp only [recalcPass2, List.mem_cons] at hc
          rcases hc with rfl | hc
          · intro _; rfl
          · intro hstage
            exact absurd (htail call hc) hstage
    · have hfb : firstBucket ((b0, ks) :: rest) k = firstBucket rest k := by
        simp [firstBucket, List.find?_cons_of_neg, hmem]
      have hnostage : jsMapGet (recalcBucketEntries env docs masks processed ks).1 k = none := by
        by_contra hc
        exact hmem ((recalcBucketEntries_staged env docs masks processed ks k).mp hc).1
      have hproc : k ∉ (recalcBucketEntries env docs masks processed ks).2 := by
        intro hc
        rcases (recalcBucketEntries_processed env docs masks processed ks k).mp hc with h | h
        · exact hk h
        · exact hmem h
      have hstep : ∀ (c : List (DocumentKey × OverlayM)),
          jsMapGet (contractSaveOverlays b0 (recalcBucketEntries env docs masks processed ks).1 c) k
            = jsMapGet c k :=
        fun c => contractSaveOverlays_unstaged _ _ _ _ hnostage
      have ihr := ih (recalcBucketEntries env docs masks processed ks).2
        (contractSaveOverlays b0 (recalcBucketEntries env docs masks processed ks).1 cache) k hproc
      constructor
      · intro hnone
        rw [hfb] at hnone
        obtain ⟨h1, h2⟩ := ihr.1 hnone
        constructor
        · show jsMapGet ((((b0, (recalcBucketEntries env docs masks processed ks).1) ::
              recalcPass2 env docs masks (recalcBucketEntries env docs masks processed ks).2
                rest).foldl (fun c e => contractSaveOverlays e.1 e.2 c) cache)) k = jsMapGet cache k
          simp only [List.foldl_cons]
          rw [h1, hstep]
        · intro call hc
          simp only [recalcPass2, List.mem_cons] at hc
          rcases hc with rfl | hc
          · exact hnostage
          · exact h2 call hc
      · intro b hb
        rw [hfb] at hb
        obtain ⟨h1, h2⟩ := ihr.2 b hb
        constructor
        · rcases h1 with ⟨mu, hm, hg⟩ | ⟨hm, hg⟩
          · left
            refine ⟨mu, hm, ?_⟩
            show jsMapGet ((((b0, (recalcBucketEntries env docs masks processed ks).1) ::
                recalcPass2 env docs masks (recalcBucketEntries env docs masks processed ks).2
                  rest).foldl (fun c e => contractSaveOverlays e.1 e.2 c) cache)) k
              = some ⟨b, some mu⟩
            simp only [List.foldl_cons]
            exact hg
          · right
            refine ⟨hm, ?_⟩
            show jsMapGet ((((b0, (recalcBucketEntries env docs masks processed ks).1) ::
                recalcPass2 env docs masks (recalcBucketEntries env docs masks processed ks).2
                  rest).foldl (fun c e => contractSaveOverlays e.1 e.2 c) cache)) k
              = jsMapGet cache k
            simp only [List.foldl_cons]
            rw [hg, hstep]
        · intro call hc
          simp only [recalcPass2, List.mem_cons] at hc
          rcases hc with rfl | hc
          · intro hstage
            exact absurd hnostage hstage
          · exact h2 call hc

theorem jsMapGet_of_mem_sorted {m : List (Int × List DocumentKey)}
    (hs : List.Pairwise (fun a b => a < b) (m.map Prod.fst)) {b : Int}
    {ks : List DocumentKey} (h : (b, ks) ∈ m) : jsMapGet m b = some ks := by
  induction m with
  | nil => simp at h
  | cons e rest ih =>
    simp only [List.map_cons, List.pairwise_cons] at hs
    rcases List.mem_cons.mp h with rfl | h'
    · simp [jsMapGet]
    · have hb : e.1 < b := hs.1 b (List.mem_map.mpr ⟨(b, ks), h', rfl⟩)
      have hne : e.1 ≠ b := ne_of_lt hb
      simp only [jsMapGet, hne, if_false]
      exact ih hs.2 h'

theorem firstBucket_reverse_spec (l : List (Int × List DocumentKey)) (k : DocumentKey)
    (hs : List.Pairwise (fun a b => a < b) (l.map Prod.fst)) :
    (∀ b, firstBucket l.reverse k = some b →
      (∃ p ∈ l, p.1 = b ∧ k ∈ p.2) ∧ ∀ p ∈ l, k ∈ p.2 → p.1 ≤ b)
    ∧ ((∃ p ∈ l, k ∈ p.2) → ∃ b, firstBucket l.reverse k = some b) := by
  induction l using List.reverseRecOn with
  | nil =>
    constructor
    · intro b hb
      simp [firstBucket] at hb
    · rintro ⟨p, hp, -⟩
      simp at hp
  | append_singleton l' p ih =>
    have hsplit := List.pairwise_append.mp (by simpa using hs)
    have hs' : List.Pairwise (fun a b => a < b) (l'.map Prod.fst) := hsplit.1
    have hlt : ∀ q ∈ l', q.1 < p.1 := by
      intro q hq
      have := hsplit.2.2 q.1 (List.mem_map.mpr ⟨q, hq, rfl⟩) p.1 (by simp)
      exact this
    have hrev : (l' ++ [p]).reverse = p :: l'.reverse := by simp
    by_cases hmem : k ∈ p.2
    · have hfb : firstBucket (l' ++ [p]).reverse k = some p.1 := by
        rw [hrev]
        simp [firstBucket, List.find?_cons_of_pos, hmem]
      constructor
      · intro b hb
        rw [hfb] at hb
        obtain rfl : p.1 = b := Option.some.inj hb
        constructor
        · exact ⟨p, List.mem_append.mpr (Or.inr (by simp)), rfl, hmem⟩
        · intro q hq hqk
          rcases List.mem_append.mp hq with hq' | hq'
          · exact le_of_lt (hlt q hq')
          · have : q = p := by simpa using hq'
            subst this
            exact le_refl _
      · intro _
        exact ⟨p.1, hfb⟩
    · have hfb : firstBucket (l' ++ [p]).reverse k = firstBucket l'.reverse k := by
        rw [hrev]
        simp [firstBucket, List.find?_cons_of_neg, hmem]
      constructor
      · intro b hb
        rw [hfb] at hb
        obtain ⟨⟨q, hq, hqb, hqk⟩, hbound⟩ := (ih hs').1 b hb
        constructor
        · exact ⟨q, List.mem_append.mpr (Or.inl hq), hqb, hqk⟩
        · intro r hr hrk
          rcases List.mem_append.mp hr with hr' | hr'
          · exact hbound r hr' hrk
          · have : r = p := by simpa using hr'
            subst this
            exact absurd hrk hmem
      · rintro ⟨q, hq, hqk⟩
        rcases List.mem_append.mp hq with hq' | hq'
        · rw [hfb]
          exact (ih hs').2 ⟨q, hq', hqk⟩
        · have : q = p := by simpa using hq'
          subst this
          exact absurd hqk hmem

/-- C1: after `recalculateAndSaveOverlays(D)`, for every key `k` touched by
at least one of the batches the mutation queue returned there is a batch id
`M` that belongs to the touching batches and bounds all of them, every
`saveOverlays` call staging `k` is issued at `M`, and: when the recalculated
overlay mutation for `k` is present the cache then holds the overlay
`(M, mu)` for `k`; when `calculateOverlayMutation` returned null — this
repository stages that null without a filter — the entry is skipped by the
contract-conforming cache and `k`'s prior cache entry is left unchanged, so
no overlay is installed for `k` (see the counterexample against the original
claim). -/
theorem c1_recalculate_assigns_max_batch (env : RecalcEnv) (queue : List MutationBatchM)
    (cache : List (DocumentKey × OverlayM)) (docs : List (DocumentKey × MutableDocumentM))
    (k : DocumentKey)
    (h : touchingIds (affectingBatches queue docs) k ≠ []) :
    ∃ M, M ∈ touchingIds (affectingBatches queue docs) k
      ∧ (∀ b ∈ touchingIds (affectingBatches queue docs) k, b ≤ M)
      ∧ ((∃ mu, recalcStagedMutation env
              (recalcPass1 env (affectingBatches queue docs) docs) k = some mu
            ∧ jsMapGet (recalculateAndSaveOverlays env queue cache docs).cache k
                = some ⟨M, some mu⟩)
        ∨ (recalcStagedMutation env
              (recalcPass1 env (affectingBatches queue docs) docs) k = none
            ∧ jsMapGet (recalculateAndSaveOverlays env queue cache docs).cache k
                = jsMapGet cache k))
      ∧ ∀ call ∈ (recalculateAndSaveOverlays env queue cache docs).saveCalls,
          jsMapGet call.2 k ≠ none → call.1 = M := by
  have hsorted := recalcPass1_byId_sorted env (affectingBatches queue docs) docs
  have hbucket := recalcPass1_inBucket env (affectingBatches queue docs) docs
  -- the key appears in a bucket, so the reversed iteration finds a first bucket
  obtain ⟨b1, hb1⟩ : ∃ b, b ∈ touchingIds (affectingBatches queue docs) k := by
    cases hids : touchingIds (affectingBatches queue docs) k with
    | nil => exact absurd hids h
    | cons x xs => exact ⟨x, by simp [hids]⟩
  obtain ⟨bucket1, hget1, hmem1⟩ := (hbucket b1 k).mpr hb1
  have hp1mem : ((b1, bucket1) ∈ (recalcPass1 env (affectingBatches queue docs) docs).byId) :=
    jsMapGet_mem hget1
  have hspec := firstBucket_reverse_spec
    (recalcPass1 env (affectingBatches queue docs) docs).byId k hsorted
  obtain ⟨M, hM⟩ := hspec.2 ⟨(b1, bucket1), hp1mem, hmem1⟩
  obtain ⟨⟨pM, hpM, hpM1, hpMk⟩, hMbound⟩ := hspec.1 M hM
  -- M is a touching id and bounds all touching ids
  have hMmem : M ∈ touchingIds (affectingBatches queue docs) k := by
    refine (hbucket M k).mp ⟨pM.2, ?_, hpMk⟩
    have := jsMapGet_of_mem_sorted hsorted (show (pM.1, pM.2) ∈ _ from by simpa using hpM)
    rw [hpM1] at this
    exact this
  have hMmax : ∀ b ∈ touchingIds (affectingBatches queue docs) k, b ≤ M := by
    intro b hb
    obtain ⟨bucket, hget, hmem⟩ := (hbucket b k).mpr hb
    exact hMbound (b, bucket) (jsMapGet_mem hget) hmem
  -- run the save pass
  have hmain := (recalcPass2_main env
    (recalcPass1 env (affectingBatches queue docs) docs).docs
    (recalcPass1 env (affectingBatches queue docs) docs).masks
    (recalcPass1 env (affectingBatches queue docs) docs).byId.reverse [] cache k
    (by simp)).2 M hM
  refine ⟨M, hMmem, hMmax, ?_, ?_⟩
  · rcases hmain.1 with ⟨mu, hm, hg⟩ | ⟨hm, hg⟩
    · exact Or.inl ⟨mu, hm, hg⟩
    · exact Or.inr ⟨hm, hg⟩
  · intro call hcall hstage
    exact hmain.2 call hcall hstage

/-- The original C1 claim is refuted when `calculateOverlayMutation` returns
null: the key is touched by the returned batch, yet after
`recalculateAndSaveOverlays` the cache holds no overlay for it, because the
null result is staged without a filter and the contract-conforming cache
skips the absent mutation. -/
theorem c1_counterexample :
    touchingIds (affectingBatches [⟨9, [exKey]⟩] c1Docs) exKey ≠ []
    ∧ jsMapGet (recalculateAndSaveOverlays exEnv [⟨9, [exKey]⟩] [] c1Docs).cache exKey
        = none :=
  ⟨by decide, by decide⟩

/-- Witness for C1: scenario S5 of the spec — batches 2, 5 and 9 all touch
the key, the environment's `calculateOverlayMutation` yields a present set
mutation, and the overlay is saved under batch id 9. -/
theorem c1_witness :
    touchingIds (affectingBatches c1Batches c1Docs) exKey ≠ []
    ∧ ∃ M, M ∈ touchingIds (affectingBatches c1Batches c1Docs) exKey
      ∧ (∀ b ∈ touchingIds (affectingBatches c1Batches c1Docs) exKey, b ≤ M)
      ∧ ((∃ mu, recalcStagedMutation exEnvSet
              (recalcPass1 exEnvSet (affectingBatches c1Batches c1Docs) c1Docs) exKey = some mu
            ∧ jsMapGet (recalculateAndSaveOverlays exEnvSet c1Batches [] c1Docs).cache exKey
                = some ⟨M, some mu⟩)
        ∨ (recalcStagedMutation exEnvSet
              (recalcPass1 exEnvSet (affectingBatches c1Batches c1Docs) c1Docs) exKey = none
            ∧ jsMapGet (recalculateAndSaveOverlays exEnvSet c1Batches [] c1Docs).cache exKey
                = jsMapGet ([] : List (DocumentKey × OverlayM)) exKey))
      ∧ ∀ call ∈ (recalculateAndSaveOverlays exEnvSet c1Batches [] c1Docs).saveCalls,
          jsMapGet call.2 exKey ≠ none → call.1 = M :=
  ⟨by decide, c1_recalculate_assigns_max_batch exEnvSet c1Batches [] c1Docs exKey (by decide)⟩

/-! ### Path-order facts for the collection range scan -/

theorem pathStartsWith_append (c r : List String) : pathStartsWith (c ++ r) c = true := by
  induction c with
  | nil => simp [pathStartsWith]
  | cons a ct ih => simp [pathStartsWith, ih]

theorem pathStartsWith_iff (c : List String) :
    ∀ p, pathStartsWith p c = true ↔ ∃ r, p = c ++ r := by
  induction c with
  | nil =>
    intro p
    simp [pathStartsWith]
  | cons ch ct ih =>
    intro p
    cases p with
    | nil =>
      simp [pathStartsWith]
    | cons ph pt =>
      simp only [pathStartsWith, Bool.and_eq_true, decide_eq_true_eq, ih]
      constructor
      · rintro ⟨rfl, r, rfl⟩
        exact ⟨r, rfl⟩
      · rintro ⟨r, hr⟩
        injection hr with h1 h2
        exact ⟨h1, r, h2⟩

theorem immediate_child_iff (c p : List String) :
    (pathStartsWith p c = true ∧ p.length = c.length + 1) ↔ ∃ x, p = c ++ [x] := by
  constructor
  · rintro ⟨hsw, hlen⟩
    obtain ⟨r, rfl⟩ := (pathStartsWith_iff c p).mp hsw
    rw [List.length_append] at hlen
    have : r.length = 1 := by omega
    obtain ⟨x, rfl⟩ := List.length_eq_one.mp this
    exact ⟨x, rfl⟩
  · rintro ⟨x, rfl⟩
    refine ⟨pathStartsWith_append c [x], ?_⟩
    simp

theorem pathLtB_append_left (c : List String) :
    ∀ x y, pathLtB (c ++ x) (c ++ y) = pathLtB x y := by
  induction c with
  | nil => intro x y; rfl
  | cons a ct ih =>
    intro x y
    simp [pathLtB, strLtB_irrefl, ih]

theorem pathLtB_single_blank (x : String) : pathLtB [x] [""] = false := by
  cases h : strLtB "" x <;> simp [pathLtB, strLtB_empty, h]

theorem pathStartsWith_dichotomy (c : List String) :
    ∀ x, pathStartsWith x c = false →
      (∀ z, pathStartsWith z c = true → pathLtB x z = true)
      ∨ (∀ z, pathStartsWith z c = true → pathLtB z x = true) := by
  induction c with
  | nil =>
    intro x hx
    simp [pathStartsWith] at hx
  | cons ch ct ih =>
    intro x hx
    cases x with
    | nil =>
      left
      intro z hz
      cases z with
      | nil => simp [pathStartsWith] at hz
      | cons zh zt => simp [pathLtB]
    | cons xh xt =>
      by_cases h1 : strLtB xh ch = true
      · left
        intro z hz
        cases z with
        | nil => simp [pathStartsWith] at hz
        | cons zh zt =>
          simp only [pathStartsWith, Bool.and_eq_true, decide_eq_true_eq] at hz
          obtain ⟨rfl, -⟩ := hz
          simp [pathLtB, h1]
      · by_cases h2 : strLtB ch xh = true
        · right
          intro z hz
          cases z with
          | nil => simp [pathStartsWith] at hz
          | cons zh zt =>
            simp only [pathStartsWith, Bool.and_eq_true, decide_eq_true_eq] at hz
            obtain ⟨rfl, -⟩ := hz
            simp [pathLtB, h2]
        · have hxc : xh = ch := strLtB_eq_of_not (by simpa using h1) (by simpa using h2)
          subst hxc
          have hx' : pathStartsWith xt ct = false := by
            simpa [pathStartsWith] using hx
          rcases ih xt hx' with hL | hR
          · left
            intro z hz
            cases z with
            | nil => simp [pathStartsWith] at hz
            | cons zh zt =>
              simp only [pathStartsWith, Bool.and_eq_true, decide_eq_true_eq] at hz
              obtain ⟨rfl, hzt⟩ := hz
              simp [pathLtB, strLtB_irrefl, hL zt hzt]
          · right
            intro z hz
            cases z with
            | nil => simp [pathStartsWith] at hz
            | cons zh zt =>
              simp only [pathStartsWith, Bool.and_eq_true, decide_eq_true_eq] at hz
              obtain ⟨rfl, hzt⟩ := hz
              simp [pathLtB, strLtB_irrefl, hR zt hzt]

/-! ### The collection range scan -/

theorem keyLtB_ne {a b : DocumentKey} (h : keyLtB a b = true) : a ≠ b := by
  intro heq
  subst heq
  simp [keyLtB, pathLtB_irrefl] at h

theorem jsMapSet_append {κ α : Type} [DecidableEq κ] (m : List (κ × α)) (k : κ) (v : α)
    (h : k ∉ m.map Prod.fst) : jsMapSet m k v = m ++ [(k, v)] := by
  induction m with
  | nil => rfl
  | cons e rest ih =>
    simp only [List.map_cons, List.mem_cons] at h
    push_neg at h
    simp only [jsMapSet, Ne.symm h.1, if_false]
    rw [ih h.2]
    rfl

theorem dropWhile_key_not_lt (ck : DocumentKey) (l : List (DocumentKey × OverlayM))
    (hs : List.Pairwise (fun a b => keyLtB a.1 b.1 = true) l) :
    ∀ e ∈ l.dropWhile (fun e => keyLtB e.1 ck), keyLtB e.1 ck = false := by
  induction l with
  | nil => simp
  | cons x rest ih =>
    rw [List.pairwise_cons] at hs
    intro e he
    rw [List.dropWhile_cons] at he
    by_cases hx : keyLtB x.1 ck = true
    · rw [if_pos hx] at he
      exact ih hs.2 e he
    · rw [if_neg hx] at he
      rcases List.mem_cons.mp he with rfl | he'
      · simpa using hx
      · by_cases hlt : keyLtB e.1 ck = true
        · have hxe : keyLtB x.1 e.1 = true := hs.1 e he'
          have : keyLtB x.1 ck = true := pathLtB_trans hxe hlt
          exact absurd this hx
        · simpa using hlt

theorem memGFCLoop_cons (c : ResourcePathM) (since : Int)
    (res : List (DocumentKey × OverlayM)) (kk : DocumentKey) (o : OverlayM)
    (rest : List (DocumentKey × OverlayM)) :
    memGFCLoop c since res ((kk, o) :: rest) =
      if ¬ pathStartsWith o.getKey.path c then res
      else if o.getKey.path.length ≠ c.length + 1 then memGFCLoop c since res rest
      else if since < o.largestBatchId then
        memGFCLoop c since (jsMapSet res o.getKey o) rest
      else memGFCLoop c since res rest := rfl

theorem memGFCLoop_eq_filter (c : ResourcePathM) (since : Int) :
    ∀ (l res : List (DocumentKey × OverlayM)),
    List.Pairwise (fun a b => keyLtB a.1 b.1 = true) l →
    (∀ e ∈ l, e.2.getKey = e.1) →
    (∀ e ∈ l, keyLtB e.1 ⟨pathChild c ""⟩ = false) →
    (∀ e ∈ l, e.1 ∉ res.map Prod.fst) →
    memGFCLoop c since res l = res ++ l.filter (fun e =>
      pathStartsWith e.1.path c &&
        (decide (e.1.path.length = c.length + 1) && decide (since < e.2.largestBatchId))) := by
  intro l
  induction l with
  | nil => intro res _ _ _ _; simp [memGFCLoop]
  | cons e rest ih =>
    intro res hs hwf hmin hdisj
    obtain ⟨kk, o⟩ := e
    rw [List.pairwise_cons] at hs
    have hgk : o.getKey = kk := hwf (kk, o) (List.mem_cons_self _ _)
    have hrest_wf : ∀ e ∈ rest, e.2.getKey = e.1 :=
      fun e he => hwf e (List.mem_cons_of_mem _ he)
    have hrest_min : ∀ e ∈ rest, keyLtB e.1 ⟨pathChild c ""⟩ = false :=
      fun e he => hmin e (List.mem_cons_of_mem _ he)
    by_cases hsw : pathStartsWith kk.path c = true
    · by_cases hlen : kk.path.length = c.length + 1
      · by_cases hb : since < o.largestBatchId
        · -- collect this overlay and continue
          have hnotin : kk ∉ res.map Prod.fst := hdisj (kk, o) (List.mem_cons_self _ _)
          have hdisj' : ∀ e ∈ rest, e.1 ∉ (res ++ [(kk, o)]).map Prod.fst := by
            intro e he
            simp only [List.map_append, List.mem_append, List.map_cons, List.mem_cons,
              List.map_nil, List.not_mem_nil, or_false]
            push_neg
            refine ⟨fun hc => hdisj e (List.mem_cons_of_mem _ he) hc, ?_⟩
            exact fun hc => (keyLtB_ne (hs.1 e he)) (by rw [hc])
          rw [memGFCLoop_cons, hgk, if_neg (not_not_intro hsw),
            if_neg (not_not_intro hlen), if_pos hb,
            jsMapSet_append res kk o hnotin,
            ih (res ++ [(kk, o)]) hs.2 hrest_wf hrest_min hdisj',
            List.filter_cons]
          have hcond : (pathStartsWith kk.path c &&
              (decide (kk.path.length = c.length + 1) &&
                decide (since < o.largestBatchId))) = true := by
            simp [hsw, hlen, hb]
          rw [if_pos hcond]
          simp
        · -- batch id not past sinceBatchId: skip
          rw [memGFCLoop_cons, hgk, if_neg (not_not_intro hsw),
            if_neg (not_not_intro hlen), if_neg hb,
            ih res hs.2 hrest_wf hrest_min
              (fun e he => hdisj e (List.mem_cons_of_mem _ he)),
            List.filter_cons]
          have hcond : (pathStartsWith kk.path c &&
              (decide (kk.path.length = c.length + 1) &&
                decide (since < o.largestBatchId))) = false := by
            simp [hb]
          rw [hcond]
          simp
      · -- a document from a sub-collection: skip
        rw [memGFCLoop_cons, hgk, if_neg (not_not_intro hsw), if_pos hlen,
          ih res hs.2 hrest_wf hrest_min
            (fun e he => hdisj e (List.mem_cons_of_mem _ he)),
          List.filter_cons]
        have hcond : (pathStartsWith kk.path c &&
            (decide (kk.path.length = c.length + 1) &&
              decide (since < o.largestBatchId))) = false := by
          simp [hlen]
        rw [hcond]
        simp
    · -- the key no longer extends the collection: break
      rw [memGFCLoop_cons, hgk, if_pos hsw]
      have hkfail : ∀ e ∈ rest, pathStartsWith e.1.path c = false := by
        intro e he
        by_cases hesw : pathStartsWith e.1.path c = true
        · exfalso
          rcases pathStartsWith_dichotomy c kk.path (by simpa using hsw) with hL | hR
          · have hlt := hL (pathChild c "") (pathStartsWith_append c [""])
            have hm := hmin (kk, o) (List.mem_cons_self _ _)
            simp only [keyLtB] at hm
            rw [hm] at hlt
            exact Bool.false_ne_true hlt
          · have h1 : pathLtB e.1.path kk.path = true := hR e.1.path hesw
            have h2 : pathLtB kk.path e.1.path = true := hs.1 e he
            have h3 := pathLtB_asymm h2
            rw [h3] at h1
            exact Bool.false_ne_true h1
        · simpa using hesw
      have hfe : ((kk, o) :: rest).filter (fun e =>
          pathStartsWith e.1.path c &&
            (decide (e.1.path.length = c.length + 1) &&
              decide (since < e.2.largestBatchId))) = [] := by
        rw [List.filter_eq_nil_iff]
        intro e he
        rcases List.mem_cons.mp he with rfl | he'
        · simp [hsw]
        · simp [hkfail e he']
      rw [hfe]
      simp

theorem mem_takeWhile_key_lt (ck : DocumentKey) (l : List (DocumentKey × OverlayM)) :
    ∀ e ∈ l.takeWhile (fun e => keyLtB e.1 ck), keyLtB e.1 ck = true := by
  induction l with
  | nil => simp
  | cons x rest ih =>
    intro e he
    rw [List.takeWhile_cons] at he
    by_cases hx : keyLtB x.1 ck = true
    · rw [if_pos hx] at he
      rcases List.mem_cons.mp he with rfl | he'
      · exact hx
      · exact ih e he'
    · rw [if_neg hx] at he
      exact absurd he (List.not_mem_nil e)

theorem memGetOverlaysForCollection_eq (s : MemoryOverlayState) (c : ResourcePathM)
    (since : Int) (hs : RowsSorted s.overlays) (hwf : RowsWF s.overlays) :
    memGetOverlaysForCollection s c since = immediateChildOverlays s.overlays c since := by
  have hs' : List.Pairwise (fun a b => keyLtB a.1 b.1 = true) s.overlays := hs
  unfold memGetOverlaysForCollection immediateChildOverlays sortedFrom
  have hsub : List.Sublist
      (s.overlays.dropWhile (fun e => keyLtB e.1 ⟨pathChild c ""⟩)) s.overlays :=
    List.dropWhile_sublist _
  rw [memGFCLoop_eq_filter c since _ []
    (List.Pairwise.sublist hsub hs')
    (fun e he => (hwf e (hsub.subset he)).2.1)
    (dropWhile_key_not_lt ⟨pathChild c ""⟩ s.overlays hs')
    (by simp)]
  have htk : ∀ e ∈ s.overlays.takeWhile (fun e => keyLtB e.1 ⟨pathChild c ""⟩),
      ¬((pathStartsWith e.1.path c &&
        (decide (e.1.path.length = c.length + 1) &&
          decide (since < e.2.largestBatchId))) = true) := by
    intro e he
    have hlt : keyLtB e.1 ⟨pathChild c ""⟩ = true := mem_takeWhile_key_lt _ _ e he
    by_cases hsw : pathStartsWith e.1.path c = true
    · by_cases hlen : e.1.path.length = c.length + 1
      · exfalso
        obtain ⟨x, hx⟩ := (immediate_child_iff c e.1.path).mp ⟨hsw, hlen⟩
        have hfalse : keyLtB e.1 ⟨pathChild c ""⟩ = false := by
          simp only [keyLtB, hx, pathChild]
          rw [pathLtB_append_left]
          exact pathLtB_single_blank x
        rw [hfalse] at hlt
        exact Bool.false_ne_true hlt
      · simp [hlen]
    · simp [hsw]
  have hwhole : s.overlays.takeWhile (fun e => keyLtB e.1 ⟨pathChild c ""⟩)
      ++ s.overlays.dropWhile (fun e => keyLtB e.1 ⟨pathChild c ""⟩) = s.overlays := by
    simp
  conv_rhs => rw [← hwhole]
  rw [List.filter_append, List.filter_eq_nil_iff.mpr htk]

theorem foldl_setGetKey (l : List (DocumentKey × OverlayM)) :
    ∀ (res : List (DocumentKey × OverlayM)),
    (∀ e ∈ l, e.2.getKey = e.1) →
    List.Pairwise (fun a b => keyLtB a.1 b.1 = true) l →
    (∀ e ∈ l, e.1 ∉ res.map Prod.fst) →
    l.foldl (fun r e => jsMapSet r e.2.getKey e.2) res = res ++ l := by
  induction l with
  | nil => intro res _ _ _; simp
  | cons e rest ih =>
    intro res hwf hs hdisj
    rw [List.pairwise_cons] at hs
    simp only [List.foldl_cons]
    rw [hwf e (List.mem_cons_self _ _),
      jsMapSet_append res e.1 e.2 (hdisj e (List.mem_cons_self _ _))]
    have heta : res ++ [(e.1, e.2)] = res ++ [e] := by
      simp
    rw [heta, ih (res ++ [e]) (fun f hf => hwf f (List.mem_cons_of_mem _ hf)) hs.2 ?_]
    · simp
    · intro f hf
      simp only [List.map_append, List.mem_append, List.map_cons, List.map_nil,
        List.mem_cons, List.not_mem_nil, or_false]
      push_neg
      refine ⟨fun hc => hdisj f (List.mem_cons_of_mem _ hf) hc, ?_⟩
      exact fun hc => (keyLtB_ne (hs.1 f hf)) (by rw [hc])

theorem idbGetOverlaysForCollection_eq (st : IdbState) (c : ResourcePathM) (since : Int)
    (hs : RowsSorted st) (hwf : RowsWF st) :
    idbGetOverlaysForCollection st c since = immediateChildOverlays st c since := by
  have hs' : List.Pairwise (fun a b => keyLtB a.1 b.1 = true) st := hs
  unfold idbGetOverlaysForCollection immediateChildOverlays
  have hfeq : st.filter (fun e => e.1.path.dropLast == c && decide (since < e.2.largestBatchId))
      = st.filter (fun e => pathStartsWith e.1.path c &&
          (decide (e.1.path.length = c.length + 1) &&
            decide (since < e.2.largestBatchId))) := by
    apply List.filter_congr
    intro e he
    have hne : e.1.path ≠ [] := (hwf e he).2.2
    by_cases hd : e.1.path.dropLast = c
    · have hex : ∃ x, e.1.path = c ++ [x] :=
        ⟨e.1.path.getLast hne, by rw [← hd]; exact (List.dropLast_append_getLast hne).symm⟩
      obtain ⟨hsw, hlen⟩ := (immediate_child_iff c e.1.path).mpr hex
      simp [hd, hsw, hlen]
    · by_cases hsw : pathStartsWith e.1.path c = true
      · by_cases hlen : e.1.path.length = c.length + 1
        · exfalso
          obtain ⟨x, hx⟩ := (immediate_child_iff c e.1.path).mp ⟨hsw, hlen⟩
          apply hd
          rw [hx]
          simp
        · simp [hd, hlen]
      · simp [hd, hsw]
  rw [hfeq]
  have hsubf : List.Sublist
      (st.filter (fun e => pathStartsWith e.1.path c &&
        (decide (e.1.path.length = c.length + 1) && decide (since < e.2.largestBatchId)))) st :=
    List.filter_sublist st
  rw [foldl_setGetKey _ []
    (fun e he => (hwf e (hsubf.subset he)).2.1)
    (List.Pairwise.sublist hsubf hs')
    (by simp)]
  simp

/-- C6: `getOverlaysForCollection(c, s)` returns exactly the overlays whose
key is an immediate child of `c` (the collection path extended by one
segment) with `largestBatchId > s`; documents of sub-collections and
overlays at or below `s` are excluded.  This holds for the in-memory range
scan and for the persistent index scan alike. -/
theorem c6_getOverlaysForCollection (s : MemoryOverlayState) (st : IdbState)
    (c : ResourcePathM) (since : Int)
    (hs : RowsSorted s.overlays) (hwf : RowsWF s.overlays)
    (hs2 : RowsSorted st) (hwf2 : RowsWF st) :
    memGetOverlaysForCollection s c since = immediateChildOverlays s.overlays c since
    ∧ idbGetOverlaysForCollection st c since = immediateChildOverlays st c since :=
  ⟨memGetOverlaysForCollection_eq s c since hs hwf,
    idbGetOverlaysForCollection_eq st c since hs2 hwf2⟩

/-- Witness for C6: scenario S3 — the overlay for `rooms/r1` is returned,
the overlay for the sub-collection document `rooms/r1/messages/m1` is
excluded, on both variants. -/
theorem c6_witness :
    (memGetOverlaysForCollection ⟨s3Rows, []⟩ ["rooms"] (-1)
        = immediateChildOverlays s3Rows ["rooms"] (-1)
      ∧ idbGetOverlaysForCollection s3Rows ["rooms"] (-1)
        = immediateChildOverlays s3Rows ["rooms"] (-1))
    ∧ immediateChildOverlays s3Rows ["rooms"] (-1)
        = [(⟨["rooms", "r1"]⟩, ⟨2, some (.setM ⟨["rooms", "r1"]⟩ 0)⟩)] :=
  ⟨c6_getOverlaysForCollection ⟨s3Rows, []⟩ s3Rows ["rooms"] (-1)
      (by decide) (by decide) (by decide) (by decide),
    by decide⟩

/-! ### The collection-group scan: sorted batch-id lists -/

theorem insSorted_mem (b : Int) (l : List Int) (x : Int) :
    x ∈ insSorted b l ↔ x = b ∨ x ∈ l := by
  induction l with
  | nil => simp [insSorted]
  | cons y rest ih =>
    unfold insSorted
    rcases lt_trichotomy b y with h1 | h1 | h1
    · simp [h1, not_lt.mpr (le_of_lt h1)]
    · subst h1
      rw [if_neg (lt_irrefl b), if_pos rfl]
      simp only [List.mem_cons]
      tauto
    · have hne : ¬ b = y := ne_of_gt h1
      simp only [not_lt.mpr (le_of_lt h1), if_false, hne, List.mem_cons, ih]
      constructor
      · rintro (rfl | h)
        · exact Or.inr (Or.inl rfl)
        · rcases h with rfl | h
          · exact Or.inl rfl
          · exact Or.inr (Or.inr h)
      · rintro (rfl | rfl | h)
        · exact Or.inr (Or.inl rfl)
        · exact Or.inl rfl
        · exact Or.inr (Or.inr h)

theorem insSorted_sorted (b : Int) (l : List Int)
    (hs : List.Pairwise (fun a b => a < b) l) :
    List.Pairwise (fun a b => a < b) (insSorted b l) := by
  induction l with
  | nil => simp [insSorted]
  | cons y rest ih =>
    rw [List.pairwise_cons] at hs
    unfold insSorted
    rcases lt_trichotomy b y with h1 | h1 | h1
    · rw [if_pos h1, List.pairwise_cons]
      constructor
      · intro x hx
        rcases List.mem_cons.mp hx with rfl | hx'
        · exact h1
        · exact lt_trans h1 (hs.1 x hx')
      · exact List.pairwise_cons.mpr hs
    · subst h1
      rw [if_neg (lt_irrefl b), if_pos rfl]
      exact List.pairwise_cons.mpr hs
    · rw [if_neg (not_lt.mpr (le_of_lt h1)), if_neg (ne_of_gt h1), List.pairwise_cons]
      refine ⟨?_, ih hs.2⟩
      intro x hx
      rcases (insSorted_mem b rest x).mp hx with rfl | hx'
      · exact h1
      · exact hs.1 x hx'

theorem sortedBatchIds_spec (rows : List (DocumentKey × OverlayM)) :
    (∀ x, x ∈ sortedBatchIds rows ↔ ∃ e ∈ rows, e.2.largestBatchId = x)
    ∧ List.Pairwise (fun a b => a < b) (sortedBatchIds rows) := by
  have hgen : ∀ (l : List (DocumentKey × OverlayM)) (acc : List Int),
      List.Pairwise (fun a b => a < b) acc →
      (∀ x, x ∈ l.foldl (fun acc e => insSorted e.2.largestBatchId acc) acc
          ↔ x ∈ acc ∨ ∃ e ∈ l, e.2.largestBatchId = x)
      ∧ List.Pairwise (fun a b => a < b)
          (l.foldl (fun acc e => insSorted e.2.largestBatchId acc) acc) := by
    intro l
    induction l with
    | nil => intro acc hacc; exact ⟨by simp, hacc⟩
    | cons e rest ih =>
      intro acc hacc
      simp only [List.foldl_cons]
      obtain ⟨ihm, ihs⟩ := ih (insSorted e.2.largestBatchId acc) (insSorted_sorted _ _ hacc)
      refine ⟨?_, ihs⟩
      intro x
      rw [ihm, insSorted_mem]
      simp only [List.mem_cons]
      constructor
      · rintro ((rfl | h) | ⟨f, hf, rfl⟩)
        · exact Or.inr ⟨e, Or.inl rfl, rfl⟩
        · exact Or.inl h
        · exact Or.inr ⟨f, Or.inr hf, rfl⟩
      · rintro (h | ⟨f, (rfl | hf), rfl⟩)
        · exact Or.inl (Or.inr h)
        · exact Or.inl (Or.inl rfl)
        · exact Or.inr ⟨f, hf, rfl⟩
  have h := hgen rows [] (by simp)
  refine ⟨?_, h.2⟩
  intro x
  rw [show sortedBatchIds rows
      = rows.foldl (fun acc e => insSorted e.2.largestBatchId acc) [] from rfl, (h.1 x)]
  simp

theorem nodup_keys_inj {m : List (DocumentKey × OverlayM)}
    (hnd : (m.map Prod.fst).Nodup) {e f : DocumentKey × OverlayM}
    (he : e ∈ m) (hf : f ∈ m) (hkey : e.1 = f.1) : e = f := by
  induction m with
  | nil => simp at he
  | cons x rest ih =>
    simp only [List.map_cons, List.nodup_cons] at hnd
    rcases List.mem_cons.mp he with rfl | he'
    · rcases List.mem_cons.mp hf with rfl | hf'
      · rfl
      · exact absurd (hkey ▸ List.mem_map.mpr ⟨f, hf', rfl⟩) hnd.1
    · rcases List.mem_cons.mp hf with rfl | hf'
      · exact absurd (hkey ▸ List.mem_map.mpr ⟨e, he', rfl⟩ : f.1 ∈ rest.map Prod.fst) hnd.1
      · exact ih hnd.2 he' hf'

theorem rowsSorted_nodup_keys {rows : List (DocumentKey × OverlayM)}
    (hs : RowsSorted rows) : (rows.map Prod.fst).Nodup := by
  have h1 : List.Pairwise (fun a b => a ≠ b) (rows.map Prod.fst) := by
    rw [List.pairwise_map]
    exact hs.imp (fun h => keyLtB_ne h)
  exact h1

theorem foldl_jsMapSet_append (l : List (DocumentKey × OverlayM)) :
    ∀ (res : List (DocumentKey × OverlayM)),
    (l.map Prod.fst).Nodup →
    (∀ e ∈ l, e.1 ∉ res.map Prod.fst) →
    l.foldl (fun r e => jsMapSet r e.1 e.2) res = res ++ l := by
  induction l with
  | nil => intro res _ _; simp
  | cons e rest ih =>
    intro res hnd hdisj
    simp only [List.map_cons, List.nodup_cons] at hnd
    simp only [List.foldl_cons]
    rw [jsMapSet_append res e.1 e.2 (hdisj e (List.mem_cons_self _ _))]
    have heta : res ++ [(e.1, e.2)] = res ++ [e] := by simp
    rw [heta, ih (res ++ [e]) hnd.2 ?_]
    · simp
    · intro f hf
      simp only [List.map_append, List.mem_append, List.map_cons, List.map_nil,
        List.mem_cons, List.not_mem_nil, or_false]
      push_neg
      refine ⟨fun hc => hdisj f (List.mem_cons_of_mem _ hf) hc, ?_⟩
      intro hc
      exact hnd.1 (hc ▸ List.mem_map.mpr ⟨f, hf, rfl⟩)

theorem idbCGQLoop_sameBatch (n b : Int) (grp : List (DocumentKey × OverlayM)) :
    ∀ (tail res : List (DocumentKey × OverlayM)) (cnt : Int),
    (∀ e ∈ grp, e.2.largestBatchId = b) →
    (∀ e ∈ grp, e.2.getKey = e.1) →
    (grp.map Prod.fst).Nodup →
    (∀ e ∈ grp, e.1 ∉ res.map Prod.fst) →
    idbCGQLoop n res (some b) cnt (grp ++ tail)
      = idbCGQLoop n (res ++ grp) (some b) (cnt + grp.length) tail := by
  induction grp with
  | nil => intro tail res cnt _ _ _ _; simp
  | cons e grest ih =>
    intro tail res cnt hb hwf hnd hdisj
    simp only [List.map_cons, List.nodup_cons] at hnd
    simp only [List.cons_append, idbCGQLoop]
    rw [if_pos (Or.inr (by rw [hb e (List.mem_cons_self _ _)]))]
    rw [hwf e (List.mem_cons_self _ _),
      jsMapSet_append res e.1 e.2 (hdisj e (List.mem_cons_self _ _)),
      hb e (List.mem_cons_self _ _)]
    have heta : res ++ [(e.1, e.2)] = res ++ [e] := by simp
    rw [heta]
    simp only [List.append_eq]
    rw [ih tail (res ++ [e]) (cnt + 1)
      (fun f hf => hb f (List.mem_cons_of_mem _ hf))
      (fun f hf => hwf f (List.mem_cons_of_mem _ hf))
      hnd.2 ?_]
    · have h1 : (res ++ [e]) ++ grest = res ++ e :: grest := by simp
      have h2 : cnt + 1 + (grest.length : Int) = cnt + ((e :: grest).length : Int) := by
        simp only [List.length_cons]
        push_cast
        ring
      rw [h1, h2]
    · intro f hf
      simp only [List.map_append, List.mem_append, List.map_cons, List.map_nil,
        List.mem_cons, List.not_mem_nil, or_false]
      push_neg
      refine ⟨fun hc => hdisj f (List.mem_cons_of_mem _ hf) hc, ?_⟩
      intro hc
      exact hnd.1 (hc ▸ List.mem_map.mpr ⟨f, hf, rfl⟩)

theorem idbCGQLoop_groups (n : Int) (m : List (DocumentKey × OverlayM))
    (hndm : (m.map Prod.fst).Nodup) (hwfm : ∀ e ∈ m, e.2.getKey = e.1) :
    ∀ (ids : List Int) (res : List (DocumentKey × OverlayM)) (cnt : Int) (cur : Option Int),
    List.Pairwise (fun a b => a < b) ids →
    (∀ b ∈ ids, cur ≠ some b) →
    (∀ b ∈ ids, ∃ e ∈ m, e.2.largestBatchId = b) →
    (∀ b ∈ ids, ∀ e ∈ m, e.2.largestBatchId = b → e.1 ∉ res.map Prod.fst) →
    idbCGQLoop n res cur cnt
        (ids.flatMap (fun b => m.filter (fun e => e.2.largestBatchId == b)))
      = res ++ (cgTakenIds m n ids cnt).flatMap
          (fun b => m.filter (fun e => e.2.largestBatchId == b)) := by
  intro ids
  induction ids with
  | nil => intro res cnt cur _ _ _ _; simp [idbCGQLoop, cgTakenIds]
  | cons b bs ih =>
    intro res cnt cur hsort hcur hne hdisj
    rw [List.pairwise_cons] at hsort
    obtain ⟨e0, he0m, he0b⟩ := hne b (List.mem_cons_self _ _)
    have he0grp : e0 ∈ m.filter (fun e => e.2.largestBatchId == b) :=
      List.mem_filter.mpr ⟨he0m, by simp [he0b]⟩
    have hgrpsub : List.Sublist (m.filter (fun e => e.2.largestBatchId == b)) m :=
      List.filter_sublist m
    have hgrpid : ∀ e ∈ m.filter (fun e => e.2.largestBatchId == b),
        e.2.largestBatchId = b := by
      intro e he
      have := (List.mem_filter.mp he).2
      simpa using this
    have hgrpnd : ((m.filter (fun e => e.2.largestBatchId == b)).map Prod.fst).Nodup :=
      List.Nodup.sublist (hgrpsub.map Prod.fst) hndm
    cases hgrp : m.filter (fun e => e.2.largestBatchId == b) with
    | nil => rw [hgrp] at he0grp; exact absurd he0grp (List.not_mem_nil e0)
    | cons e1 grest =>
      simp only [List.flatMap_cons, hgrp, List.cons_append, idbCGQLoop]
      have he1id : e1.2.largestBatchId = b := hgrpid e1 (hgrp ▸ List.mem_cons_self _ _)
      by_cases hlt : cnt < n
      · rw [if_pos (Or.inl hlt)]
        have he1m : e1 ∈ m := hgrpsub.subset (hgrp ▸ List.mem_cons_self _ _)
        rw [hwfm e1 he1m,
          jsMapSet_append res e1.1 e1.2
            (hdisj b (List.mem_cons_self _ _) e1 he1m he1id),
          he1id]
        have heta : res ++ [(e1.1, e1.2)] = res ++ [e1] := by simp
        rw [heta]
        have hndcons : ((e1 :: grest).map Prod.fst).Nodup := hgrp ▸ hgrpnd
        simp only [List.map_cons, List.nodup_cons] at hndcons
        have hinner := idbCGQLoop_sameBatch n b grest
          (bs.flatMap (fun b => m.filter (fun e => e.2.largestBatchId == b)))
          (res ++ [e1]) (cnt + 1)
          (fun f hf => hgrpid f (hgrp ▸ List.mem_cons_of_mem _ hf))
          (fun f hf => hwfm f (hgrpsub.subset (hgrp ▸ List.mem_cons_of_mem _ hf)))
          hndcons.2 ?_
        · rw [hinner]
          have hsize : (cgGroupSize m b : Int) = (grest.length : Int) + 1 := by
            unfold cgGroupSize
            rw [hgrp]
            simp only [List.length_cons]
            push_cast
            ring
          have hres : (res ++ [e1]) ++ grest = res ++ (e1 :: grest) := by simp
          have hcnt : cnt + 1 + (grest.length : Int) = cnt + (cgGroupSize m b : Int) := by
            rw [hsize]
            ring
          rw [hres, hcnt]
          have hout := ih (res ++ (e1 :: grest)) (cnt + (cgGroupSize m b : Int)) (some b)
            hsort.2
            (fun b' hb' hc => (ne_of_lt (hsort.1 b' hb')) (Option.some.inj hc))
            (fun b' hb' => hne b' (List.mem_cons_of_mem _ hb'))
            ?_
          · rw [hout]
            conv_rhs => rw [cgTakenIds]
            rw [if_neg (not_le.mpr hlt)]
            simp only [List.flatMap_cons, hgrp]
            rw [List.append_assoc]
          · intro b' hb' e hem heid
            simp only [List.map_append, List.mem_append, List.map_cons, List.mem_cons]
            push_neg
            refine ⟨fun hc => hdisj b' (List.mem_cons_of_mem _ hb') e hem heid hc, ?_, ?_⟩
            · intro hc
              have he1m' : e1 ∈ m := he1m
              have : e = e1 := nodup_keys_inj hndm hem he1m' hc
              rw [this] at heid
              rw [heid] at he1id
              exact (ne_of_lt (hsort.1 b' hb')) (he1id.symm ▸ rfl)
            · intro hc
              obtain ⟨f, hf, hfk⟩ := List.mem_map.mp hc
              have hfm : f ∈ m := hgrpsub.subset (hgrp ▸ List.mem_cons_of_mem _ hf)
              have : e = f := nodup_keys_inj hndm hem hfm hfk.symm
              have hfid : f.2.largestBatchId = b :=
                hgrpid f (hgrp ▸ List.mem_cons_of_mem _ hf)
              rw [this] at heid
              rw [heid] at hfid
              exact (ne_of_lt (hsort.1 b' hb')) hfid.symm
        · intro f hf
          simp only [List.map_append, List.mem_append, List.map_cons, List.map_nil,
            List.mem_cons, List.not_mem_nil, or_false]
          push_neg
          have hfm : f ∈ m := hgrpsub.subset (hgrp ▸ List.mem_cons_of_mem _ hf)
          refine ⟨fun hc =>
            hdisj b (List.mem_cons_self _ _) f hfm
              (hgrpid f (hgrp ▸ List.mem_cons_of_mem _ hf)) hc, ?_⟩
          intro hc
          exact hndcons.1 (hc ▸ List.mem_map.mpr ⟨f, hf, rfl⟩)
      · have hcurb : ¬(cnt < n ∨ cur = some e1.2.largestBatchId) := by
          rintro (hc | hc)
          · exact hlt hc
          · rw [he1id] at hc
            exact hcur b (List.mem_cons_self _ _) hc
        rw [if_neg hcurb]
        unfold cgTakenIds
        rw [if_pos (not_lt.mp hlt)]
        simp

theorem idbCGQ_eq_spec (st : IdbState) (g : String) (since n : Int)
    (hs : RowsSorted st) (hwf : RowsWF st) :
    idbGetOverlaysForCollectionGroup st g since n = cgSpecResult st g since n := by
  have hndm : ((cgMatching st g since).map Prod.fst).Nodup :=
    List.Nodup.sublist ((List.filter_sublist st).map Prod.fst) (rowsSorted_nodup_keys hs)
  have hwfm : ∀ e ∈ cgMatching st g since, e.2.getKey = e.1 :=
    fun e he => (hwf e ((List.filter_sublist st).subset he)).2.1
  have hsb := sortedBatchIds_spec (cgMatching st g since)
  unfold idbGetOverlaysForCollectionGroup idbScanRows cgSpecResult
  rw [idbCGQLoop_groups n (cgMatching st g since) hndm hwfm
    (sortedBatchIds (cgMatching st g since)) [] 0 none
    hsb.2
    (fun b _ hc => Option.noConfusion hc)
    (fun b hb => (hsb.1 b).mp hb)
    (by simp)]
  simp

theorem mapCongrMem {α β : Type} {l : List α} {f g : α → β}
    (h : ∀ a ∈ l, f a = g a) : l.map f = l.map g := by
  induction l with
  | nil => rfl
  | cons a rest ih =>
    simp only [List.map_cons]
    rw [h a (List.mem_cons_self _ _), ih (fun a ha => h a (List.mem_cons_of_mem _ ha))]

theorem bucketsInsert_spec (b' : Int) (k : DocumentKey) (o : OverlayM)
    (grpF : Int → List (DocumentKey × OverlayM)) :
    ∀ (ids : List Int),
    List.Pairwise (fun a b => a < b) ids →
    (b' ∉ ids → grpF b' = []) →
    k ∉ (grpF b').map Prod.fst →
    bucketsInsert b' k o (ids.map (fun b => (b, grpF b)))
      = (insSorted b' ids).map
          (fun b => (b, if b = b' then grpF b ++ [(k, o)] else grpF b)) := by
  intro ids
  induction ids with
  | nil =>
    intro _ hempty _
    simp [bucketsInsert, insSorted, hempty (List.not_mem_nil b')]
  | cons b0 bs ih =>
    intro hsort hempty hknotin
    rw [List.pairwise_cons] at hsort
    simp only [List.map_cons, bucketsInsert]
    unfold insSorted
    rcases lt_trichotomy b' b0 with h1 | h1 | h1
    · rw [if_pos h1, if_pos h1]
      have hb'notin : b' ∉ b0 :: bs := by
        intro hc
        rcases List.mem_cons.mp hc with rfl | hc'
        · exact lt_irrefl b' h1
        · exact lt_irrefl b' (lt_trans h1 (hsort.1 b' hc'))
      have hne0 : ¬ b0 = b' := (ne_of_lt h1).symm
      simp only [List.map_cons]
      rw [if_pos trivial, hempty hb'notin, List.nil_append, if_neg hne0]
      have htail : bs.map (fun b => (b, grpF b))
          = bs.map (fun b => (b, if b = b' then grpF b ++ [(k, o)] else grpF b)) := by
        apply mapCongrMem
        intro b hb
        have hne : ¬ b = b' := (ne_of_lt (lt_trans h1 (hsort.1 b hb))).symm
        rw [if_neg hne]
      rw [← htail]
    · subst h1
      rw [if_neg (lt_irrefl b'), if_pos rfl, if_neg (lt_irrefl b'), if_pos rfl]
      simp only [List.map_cons]
      rw [if_pos trivial, jsMapSet_append (grpF b') k o hknotin]
      have htail : bs.map (fun b => (b, grpF b))
          = bs.map (fun b => (b, if b = b' then grpF b ++ [(k, o)] else grpF b)) := by
        apply mapCongrMem
        intro b hb
        have hne : ¬ b = b' := (ne_of_lt (hsort.1 b hb)).symm
        rw [if_neg hne]
      rw [← htail]
    · rw [if_neg (not_lt.mpr (le_of_lt h1)), if_neg (ne_of_gt h1),
        if_neg (not_lt.mpr (le_of_lt h1)), if_neg (ne_of_gt h1)]
      simp only [List.map_cons]
      have hne0 : ¬ b0 = b' := ne_of_lt h1
      rw [if_neg hne0]
      have hempty' : b' ∉ bs → grpF b' = [] := by
        intro hc
        refine hempty ?_
        intro hmem
        rcases List.mem_cons.mp hmem with rfl | hmem'
        · exact (ne_of_gt h1) rfl
        · exact hc hmem'
      rw [ih hsort.2 hempty' hknotin]

theorem memCGQBuild_cons (g : String) (since : Int)
    (buckets : List (Int × List (DocumentKey × OverlayM))) (kk : DocumentKey)
    (o : OverlayM) (rest : List (DocumentKey × OverlayM)) :
    memCGQBuild g since buckets ((kk, o) :: rest) =
      if collectionGroupOf o.getKey ≠ some g then memCGQBuild g since buckets rest
      else if since < o.largestBatchId then
        memCGQBuild g since (bucketsInsert o.largestBatchId o.getKey o buckets) rest
      else memCGQBuild g since buckets rest := rfl

theorem sortedBatchIds_append_one (l : List (DocumentKey × OverlayM))
    (e : DocumentKey × OverlayM) :
    sortedBatchIds (l ++ [e]) = insSorted e.2.largestBatchId (sortedBatchIds l) := by
  unfold sortedBatchIds
  rw [List.foldl_append]
  rfl

theorem memCGQBuild_eq (g : String) (since : Int) :
    ∀ (rows macc : List (DocumentKey × OverlayM)),
    ((macc ++ rows).map Prod.fst).Nodup →
    (∀ e ∈ rows, e.2.getKey = e.1) →
    memCGQBuild g since
        ((sortedBatchIds macc).map
          (fun b => (b, macc.filter (fun e => e.2.largestBatchId == b))))
        rows
      = (sortedBatchIds (macc ++ cgMatching rows g since)).map
          (fun b => (b,
            (macc ++ cgMatching rows g since).filter
              (fun e => e.2.largestBatchId == b))) := by
  intro rows
  induction rows with
  | nil =>
    intro macc _ _
    simp [memCGQBuild, cgMatching]
  | cons e rest ih =>
    intro macc hnd hwf
    obtain ⟨kk, o⟩ := e
    have hgk : o.getKey = kk := hwf (kk, o) (List.mem_cons_self _ _)
    have hndskip : ((macc ++ rest).map Prod.fst).Nodup := by
      refine List.Nodup.sublist ?_ hnd
      exact (List.Sublist.append_left (List.sublist_cons_self _ _) macc).map Prod.fst
    have hwfrest : ∀ f ∈ rest, f.2.getKey = f.1 :=
      fun f hf => hwf f (List.mem_cons_of_mem _ hf)
    rw [memCGQBuild_cons]
    by_cases hg : collectionGroupOf o.getKey = some g
    · by_cases hb : since < o.largestBatchId
      · -- the row qualifies: it is inserted into its bucket
        rw [if_neg (not_not_intro hg), if_pos hb]
        have hmatch : cgMatching ((kk, o) :: rest) g since
            = (kk, o) :: cgMatching rest g since := by
          unfold cgMatching
          rw [List.filter_cons]
          have : (collectionGroupOf (kk, o).2.getKey == some g
              && decide (since < (kk, o).2.largestBatchId)) = true := by
            simp [hg, hb]
          rw [if_pos this]
        have hsb := sortedBatchIds_spec macc
        have hkk_not_macc : kk ∉ macc.map Prod.fst := by
          intro hc
          rw [List.map_append] at hnd
          have := (List.nodup_append.mp hnd).2.2
          exact this hc (by simp)
        have hins := bucketsInsert_spec o.largestBatchId kk o
          (fun b => macc.filter (fun e => e.2.largestBatchId == b))
          (sortedBatchIds macc) hsb.2 ?_ ?_
        · rw [hgk, hins]
          have hspec1 : insSorted o.largestBatchId (sortedBatchIds macc)
              = sortedBatchIds (macc ++ [(kk, o)]) := by
            rw [sortedBatchIds_append_one]
          have hspec2 : ∀ b, (if b = o.largestBatchId then
                macc.filter (fun e => e.2.largestBatchId == b) ++ [(kk, o)]
              else macc.filter (fun e => e.2.largestBatchId == b))
              = (macc ++ [(kk, o)]).filter (fun e => e.2.largestBatchId == b) := by
            intro b
            rw [List.filter_append]
            by_cases hbb : b = o.largestBatchId
            · rw [if_pos hbb]
              have : ([(kk, o)].filter (fun e => e.2.largestBatchId == b)) = [(kk, o)] := by
                simp [hbb]
              rw [this]
            · rw [if_neg hbb]
              have : ([(kk, o)].filter (fun e => e.2.largestBatchId == b)) = [] := by
                simp
                intro hc
                exact absurd hc.symm hbb
              rw [this, List.append_nil]
          have hmapeq : (insSorted o.largestBatchId (sortedBatchIds macc)).map
                (fun b => (b, if b = o.largestBatchId then
                  macc.filter (fun e => e.2.largestBatchId == b) ++ [(kk, o)]
                else macc.filter (fun e => e.2.largestBatchId == b)))
              = (sortedBatchIds (macc ++ [(kk, o)])).map
                (fun b => (b, (macc ++ [(kk, o)]).filter
                  (fun e => e.2.largestBatchId == b))) := by
            rw [hspec1]
            apply mapCongrMem
            intro b _
            rw [hspec2 b]
          rw [hmapeq]
          have hnd' : (((macc ++ [(kk, o)]) ++ rest).map Prod.fst).Nodup := by
            have : (macc ++ [(kk, o)]) ++ rest = macc ++ ((kk, o) :: rest) := by simp
            rw [this]
            exact hnd
          rw [ih (macc ++ [(kk, o)]) hnd' hwfrest, hmatch]
          have hassoc : (macc ++ [(kk, o)]) ++ cgMatching rest g since
              = macc ++ ((kk, o) :: cgMatching rest g since) := by simp
          rw [hassoc]
        · intro hnotin
          rw [List.filter_eq_nil_iff]
          intro f hf
          intro hc
          refine hnotin ((hsb.1 o.largestBatchId).mpr ⟨f, hf, ?_⟩)
          simpa using hc
        · intro hc
          obtain ⟨f, hf, hfk⟩ := List.mem_map.mp hc
          refine hkk_not_macc ?_
          exact List.mem_map.mpr ⟨f, (List.filter_sublist macc).subset hf, hfk⟩
      · -- batch id not past sinceBatchId: skipped
        rw [if_neg (not_not_intro hg), if_neg hb]
        have hmatch : cgMatching ((kk, o) :: rest) g since = cgMatching rest g since := by
          unfold cgMatching
          have : (collectionGroupOf (kk, o).2.getKey == some g
              && decide (since < (kk, o).2.largestBatchId)) = false := by
            simp [hb]
          rw [List.filter_cons, this]
          simp
        rw [ih macc hndskip hwfrest, hmatch]
    · -- wrong collection group: skipped
      rw [if_pos hg]
      have hmatch : cgMatching ((kk, o) :: rest) g since = cgMatching rest g since := by
        unfold cgMatching
        have : (collectionGroupOf (kk, o).2.getKey == some g
            && decide (since < (kk, o).2.largestBatchId)) = false := by
          simp [hg]
        rw [List.filter_cons, this]
        simp
      rw [ih macc hndskip hwfrest, hmatch]

theorem cgTakenIds_of_le (m : List (DocumentKey × OverlayM)) (n : Int)
    (ids : List Int) (acc : Int) (h : n ≤ acc) : cgTakenIds m n ids acc = [] := by
  cases ids with
  | nil => rfl
  | cons b bs =>
    unfold cgTakenIds
    rw [if_pos h]

theorem memCGQDrain_cons (n : Int) (res : List (DocumentKey × OverlayM))
    (b : Int) (grp : List (DocumentKey × OverlayM))
    (rest : List (Int × List (DocumentKey × OverlayM))) :
    memCGQDrain n res ((b, grp) :: rest)
      = (if n ≤ ((grp.foldl (fun r e => jsMapSet r e.1 e.2) res).length : Int)
          then grp.foldl (fun r e => jsMapSet r e.1 e.2) res
          else memCGQDrain n (grp.foldl (fun r e => jsMapSet r e.1 e.2) res) rest) := rfl

theorem cgTakenIdsDW_cons (m : List (DocumentKey × OverlayM)) (n : Int)
    (b : Int) (bs : List Int) (acc : Int) :
    cgTakenIdsDW m n (b :: bs) acc
      = b :: (if n ≤ acc + (cgGroupSize m b : Int) then []
          else cgTakenIdsDW m n bs (acc + (cgGroupSize m b : Int))) := rfl

theorem memCGQDrain_eq (n : Int) (m : List (DocumentKey × OverlayM))
    (hndm : (m.map Prod.fst).Nodup) :
    ∀ (ids : List Int) (res : List (DocumentKey × OverlayM)),
    List.Pairwise (fun a b => a < b) ids →
    (∀ b ∈ ids, ∀ e ∈ m.filter (fun e => e.2.largestBatchId == b),
      e.1 ∉ res.map Prod.fst) →
    memCGQDrain n res
        (ids.map (fun b => (b, m.filter (fun e => e.2.largestBatchId == b))))
      = res ++ (cgTakenIdsDW m n ids (res.length : Int)).flatMap
          (fun b => m.filter (fun e => e.2.largestBatchId == b)) := by
  intro ids
  induction ids with
  | nil =>
    intro res _ _
    simp [memCGQDrain, cgTakenIdsDW]
  | cons b bs ih =>
    intro res hsort hdisj
    rw [List.pairwise_cons] at hsort
    simp only [List.map_cons]
    have hndg : ((m.filter (fun e => e.2.largestBatchId == b)).map Prod.fst).Nodup :=
      List.Nodup.sublist ((List.filter_sublist m).map Prod.fst) hndm
    have hfold : (m.filter (fun e => e.2.largestBatchId == b)).foldl
          (fun r e => jsMapSet r e.1 e.2) res
        = res ++ m.filter (fun e => e.2.largestBatchId == b) :=
      foldl_jsMapSet_append _ res hndg (hdisj b (List.mem_cons_self _ _))
    have hlen : (((res ++ m.filter (fun e => e.2.largestBatchId == b)).length : Nat) : Int)
        = (res.length : Int) + (cgGroupSize m b : Int) := by
      simp [cgGroupSize]
    rw [memCGQDrain_cons, hfold, hlen, cgTakenIdsDW_cons]
    by_cases hstop : n ≤ (res.length : Int) + (cgGroupSize m b : Int)
    · rw [if_pos hstop, if_pos hstop]
      simp
    · rw [if_neg hstop, if_neg hstop]
      have hdisj' : ∀ b' ∈ bs, ∀ e ∈ m.filter (fun e => e.2.largestBatchId == b'),
          e.1 ∉ (res ++ m.filter (fun e => e.2.largestBatchId == b)).map Prod.fst := by
        intro b' hb' e he hc
        rw [List.map_append, List.mem_append] at hc
        rcases hc with hc | hc
        · exact hdisj b' (List.mem_cons_of_mem _ hb') e he hc
        · obtain ⟨f, hf, hfk⟩ := List.mem_map.mp hc
          have hfm : f ∈ m := (List.filter_sublist m).subset hf
          have hem : e ∈ m := (List.filter_sublist m).subset he
          have hef : e = f := nodup_keys_inj hndm hem hfm hfk.symm
          have heb' : e.2.largestBatchId = b' := by
            have hh := (List.mem_filter.mp he).2
            simpa using hh
          have hfb : f.2.largestBatchId = b := by
            have hh := (List.mem_filter.mp hf).2
            simpa using hh
          rw [hef, hfb] at heb'
          exact (ne_of_lt (hsort.1 b' hb')) heb'
      rw [ih (res ++ m.filter (fun e => e.2.largestBatchId == b)) hsort.2 hdisj', hlen]
      simp [List.flatMap_cons, List.append_assoc]

theorem memCGQ_eq_dw (s : MemoryOverlayState) (g : String) (since n : Int)
    (hs : RowsSorted s.overlays) (hwf : RowsWF s.overlays) :
    memGetOverlaysForCollectionGroup s g since n
      = (cgTakenIdsDW (cgMatching s.overlays g since) n
          (sortedBatchIds (cgMatching s.overlays g since)) 0).flatMap
          (fun b => (cgMatching s.overlays g since).filter
            (fun e => e.2.largestBatchId == b)) := by
  unfold memGetOverlaysForCollectionGroup
  have hndrows : (s.overlays.map Prod.fst).Nodup := rowsSorted_nodup_keys hs
  have hwf' : ∀ e ∈ s.overlays, e.2.getKey = e.1 := fun e he => (hwf e he).2.1
  have hbuild : memCGQBuild g since [] s.overlays
      = (sortedBatchIds (cgMatching s.overlays g since)).map
          (fun b => (b, (cgMatching s.overlays g since).filter
            (fun e => e.2.largestBatchId == b))) :=
    memCGQBuild_eq g since s.overlays [] (by simpa using hndrows) hwf'
  rw [hbuild]
  have hndm : ((cgMatching s.overlays g since).map Prod.fst).Nodup :=
    List.Nodup.sublist ((List.filter_sublist s.overlays).map Prod.fst) hndrows
  have hdrain := memCGQDrain_eq n (cgMatching s.overlays g since) hndm
    (sortedBatchIds (cgMatching s.overlays g since)) []
    (sortedBatchIds_spec _).2 (by intro b _ e _ hc; simp at hc)
  simpa using hdrain

theorem cgTakenIdsDW_eq_w (m : List (DocumentKey × OverlayM)) (n : Int) :
    ∀ (ids : List Int) (acc : Int), acc < n →
    cgTakenIdsDW m n ids acc = cgTakenIds m n ids acc := by
  intro ids
  induction ids with
  | nil => intro acc _; rfl
  | cons b bs ih =>
    intro acc hacc
    rw [cgTakenIdsDW_cons]
    unfold cgTakenIds
    rw [if_neg (not_le.mpr hacc)]
    by_cases hif : n ≤ acc + (cgGroupSize m b : Int)
    · rw [if_pos hif, cgTakenIds_of_le m n bs _ hif]
    · rw [if_neg hif, ih _ (not_le.mp hif)]

theorem memCGQ_eq_spec (s : MemoryOverlayState) (g : String) (since n : Int)
    (hs : RowsSorted s.overlays) (hwf : RowsWF s.overlays) (hn : 1 ≤ n) :
    memGetOverlaysForCollectionGroup s g since n
      = cgSpecResult s.overlays g since n := by
  rw [memCGQ_eq_dw s g since n hs hwf]
  show _ = (cgTakenIds (cgMatching s.overlays g since) n
      (sortedBatchIds (cgMatching s.overlays g since)) 0).flatMap
      (fun b => (cgMatching s.overlays g since).filter
        (fun e => e.2.largestBatchId == b))
  rw [cgTakenIdsDW_eq_w (cgMatching s.overlays g since) n
    (sortedBatchIds (cgMatching s.overlays g since)) 0 (by omega)]

/-- C2: for every collection group `g`, every `sinceBatchId` and every count,
the persistent `getOverlaysForCollectionGroup` returns exactly the overlays
whose key's collection group is `g` and whose `largestBatchId > sinceBatchId`,
restricted to a prefix of complete batch groups in ascending batch-id order,
groups added whole while the cumulative number of collected overlays is still
below `count` (so the result may exceed `count` but never splits a batch); the
in-memory variant returns the same for every count ≥ 1.  At count ≤ 0 the two
differ: the in-memory loop copies a whole group before comparing sizes and so
still returns the first complete group (see the counterexample), while the
persistent callback checks the size first and returns nothing. -/
theorem c2_collection_group_query (st : IdbState) (idx : List (Int × List DocumentKey))
    (g : String) (s n : Int) (hs : RowsSorted st) (hwf : RowsWF st) :
    idbGetOverlaysForCollectionGroup st g s n = cgSpecResult st g s n
    ∧ (1 ≤ n →
        memGetOverlaysForCollectionGroup ⟨st, idx⟩ g s n = cgSpecResult st g s n) :=
  ⟨idbCGQ_eq_spec st g s n hs hwf,
   fun hn => memCGQ_eq_spec ⟨st, idx⟩ g s n hs hwf hn⟩

/-- At count 0 the in-memory variant does not return the empty prefix the
claim prescribes: it returns the whole first batch group. -/
theorem c2_counterexample :
    memGetOverlaysForCollectionGroup ⟨[(wk "a", wOv 3 "a")], []⟩ "msgs" 0 0
      ≠ cgSpecResult [(wk "a", wOv 3 "a")] "msgs" 0 0 := by
  decide

/-- Witness for C2 at the scenario-S4 rows, collection group `msgs`,
`sinceBatchId = 0`, count 2. -/
theorem c2_witness :
    (RowsSorted wRows ∧ RowsWF wRows)
    ∧ (idbGetOverlaysForCollectionGroup wRows "msgs" 0 2 = cgSpecResult wRows "msgs" 0 2
       ∧ (1 ≤ (2 : Int) →
          memGetOverlaysForCollectionGroup ⟨wRows, []⟩ "msgs" 0 2
            = cgSpecResult wRows "msgs" 0 2)) :=
  ⟨⟨by decide, by decide⟩,
   c2_collection_group_query wRows [] "msgs" 0 2 (by decide) (by decide)⟩

/-- C9: on equal well-formed cache contents the two variants return equal
results for every read of the contract — point lookup, collection read, and
collection-group read for every count ≥ 1.  They are not interchangeable in
general: `saveOverlays` on a present mutation throws on the in-memory variant
but succeeds on the persistent one, and at count ≤ 0 the collection-group
reads differ (see the counterexample). -/
theorem c9_variants_read_agree (st : IdbState) (idx : List (Int × List DocumentKey))
    (hs : RowsSorted st) (hwf : RowsWF st) :
    (∀ k, memGetOverlay ⟨st, idx⟩ k = idbGetOverlay st k)
    ∧ (∀ c s, memGetOverlaysForCollection ⟨st, idx⟩ c s
        = idbGetOverlaysForCollection st c s)
    ∧ (∀ g s n, 1 ≤ n →
        memGetOverlaysForCollectionGroup ⟨st, idx⟩ g s n
          = idbGetOverlaysForCollectionGroup st g s n) := by
  refine ⟨fun k => rfl, fun c s => ?_, fun g s n hn => ?_⟩
  · rw [memGetOverlaysForCollection_eq ⟨st, idx⟩ c s hs hwf,
      idbGetOverlaysForCollection_eq st c s hs hwf]
  · rw [memCGQ_eq_spec ⟨st, idx⟩ g s n hs hwf hn, idbCGQ_eq_spec st g s n hs hwf]

/-- The two variants are distinguishable by a contract operation sequence:
the same `saveOverlays` call throws on the in-memory cache and succeeds on
the persistent one, and on equal contents the collection-group read at
count 0 returns different results. -/
theorem c9_counterexample :
    memSaveOverlays 3 [(wk "a", some (.setM (wk "a") 0))] memEmpty
        = .threw ⟨[(wk "a", wOv 3 "a")], []⟩
    ∧ idbSaveOverlays 3 [(wk "a", some (.setM (wk "a") 0))] []
        = .ok [(wk "a", wOv 3 "a")]
    ∧ memGetOverlaysForCollectionGroup ⟨[(wk "a", wOv 3 "a")], []⟩ "msgs" 0 0
        ≠ idbGetOverlaysForCollectionGroup [(wk "a", wOv 3 "a")] "msgs" 0 0 := by
  refine ⟨by decide, by decide, by decide⟩

/-- Witness for C9 at the scenario-S4 rows. -/
theorem c9_witness :
    (RowsSorted wRows ∧ RowsWF wRows)
    ∧ ((∀ k, memGetOverlay ⟨wRows, []⟩ k = idbGetOverlay wRows k)
       ∧ (∀ c s, memGetOverlaysForCollection ⟨wRows, []⟩ c s
           = idbGetOverlaysForCollection wRows c s)
       ∧ (∀ g s n, 1 ≤ n →
           memGetOverlaysForCollectionGroup ⟨wRows, []⟩ g s n
             = idbGetOverlaysForCollectionGroup wRows g s n)) :=
  ⟨⟨by decide, by decide⟩, c9_variants_read_agree wRows [] (by decide) (by decide)⟩
